import Mathlib

set_option maxHeartbeats 2000000

/-!
Verification of the coverage triage core of AFLRun (`src/afl-fuzz-bitmap.c`).

Traces and virgin maps are modelled as lists of 64-bit word values
(`List Nat`, each entry meant to be `< 2 ^ 64`), matching the `u64 *` view the
hot-path code takes of the shared-memory byte buffers.  Pure functions of the C
source become Lean functions; the stateful save pipeline becomes an explicit
state-passing function over an `AflState` record, with the external
collaborators (path scheduler, forkserver, filesystem) abstracted as oracle
parameters.  `FATAL` aborts are modelled as `Option.none` results.

The word-level coverage primitives (`classify_word`, `skim`, `discover_word`,
`discover_word_mul`, `simplify_trace`) live in `coverage-64.h`, which is not
part of the sources at hand; they are modelled from the specification (§4.B,
§4.C) and from `afl-fuzz-bitmap.c`'s own comments, and marked as such.
-/

/-- Extract byte `j` (0 = least significant) of a word, matching the
little-endian `u8 *` view a `u64 *` buffer cell. -/
def byteAt (j w : Nat) : Nat := (w >>> (8 * j)) &&& 255

/-- `count_class_lookup8` (src lines 158-170) as a function on byte values:
buckets raw edge-hit counts into log classes. -/
def count_class_lookup8 (b : Nat) : Nat :=
  if b = 0 then 0
  else if b = 1 then 1
  else if b = 2 then 2
  else if b = 3 then 4
  else if b ≤ 7 then 8
  else if b ≤ 15 then 16
  else if b ≤ 31 then 32
  else if b ≤ 127 then 64
  else 128

/-- `count_class_lookup16` as filled in by `init_count_class16` (src lines
174-189): the entry at index `(b1 << 8) + b2` holds
`(count_class_lookup8 b1 << 8) | count_class_lookup8 b2`. -/
def count_class_lookup16 (w : Nat) : Nat :=
  (count_class_lookup8 (w / 256) <<< 8) ||| count_class_lookup8 (w % 256)

/-- Modelled from the spec (§4.B): the word-wise classification step applied
by `classify_counts` (`coverage-64.h`, not under `src/`): `count_class_lookup16`
applied to the four 16-bit lanes of a 64-bit word.  Per §4.B the per-byte
output equals `count_class_lookup8` of the input byte. -/
def classify_word (w : Nat) : Nat :=
  count_class_lookup16 (w &&& 0xFFFF)
  + (count_class_lookup16 ((w >>> 16) &&& 0xFFFF) <<< 16)
  + (count_class_lookup16 ((w >>> 32) &&& 0xFFFF) <<< 32)
  + (count_class_lookup16 ((w >>> 48) &&& 0xFFFF) <<< 48)

/-- `classify_counts` over a whole trace. -/
def classify_counts (t : List Nat) : List Nat := t.map classify_word

/-- `simplify_lookup` (src lines 148-152): `0 → 1`, everything else `→ 128`. -/
def simplify_lookup (b : Nat) : Nat := if b = 0 then 1 else 128

/-- Modelled from the spec (§4.B): `simplify_trace`'s word step
(`coverage-64.h`, not under `src/`): apply `simplify_lookup` to each byte. -/
def simplify_word (w : Nat) : Nat :=
  (List.range 8).foldr (fun j acc => (simplify_lookup (byteAt j w) <<< (8 * j)) + acc) 0

/-- `simplify_trace` over a whole trace. -/
def simplify_trace (t : List Nat) : List Nat := t.map simplify_word

/-- Per-byte new-edge test of `discover_word`: a non-zero current byte whose
virgin byte is still pristine (`0xff`). -/
def newEdgeByte (c v : Nat) : Bool := c != 0 && v == 255

/-- Modelled from the spec (§4.C, `discover_word` in `coverage-64.h`, not under
`src/`): the novelty level one 64-bit word pair contributes: 0 when
`current & virgin` is zero; otherwise 2 when some non-zero current byte has a
pristine virgin byte, else 1. -/
def wordLevel (c v : Nat) : Nat :=
  if c &&& v = 0 then 0
  else if (List.range 8).any (fun j => newEdgeByte (byteAt j c) (byteAt j v)) then 2
  else 1

/-- `*virgin &= ~*current` on one word: since `Nat` is unbounded, the
complement is expressed by removing the overlapping bits — `v - (v &&& c)`
keeps exactly the bits of `v` not set in `c` (certified against the bitwise
and-not `Nat.ldiff` by `clearWord_eq_ldiff` below). -/
def clearWord (v c : Nat) : Nat := v - (v &&& c)

/-- Modelled from the spec (§4.C): the pass of `discover_word` /
`discover_word_mul` restricted to a single virgin map, folded over all word
indices: the maximum per-word novelty level, and the updated map (bits cleared
only when `modify` and the word overlaps the virgin word).  The C code iterates
words in an outer loop and maps in an inner loop; each (word, map) cell is
read and written independently of the others, so iterating one map over all
its words computes the same per-map tag and the same final maps.  Words with
`*current == 0` are skipped by the C loop; such words contribute level 0 and
no mutation here, so the result agrees. -/
def discover_map (modify : Bool) : List Nat → List Nat → Nat × List Nat
  | [], vs => (0, vs)
  | _ :: _, [] => (0, [])
  | c :: cs, v :: vs =>
    let r := discover_map modify cs vs
    (max (wordLevel c v) r.1,
      (if modify ∧ c &&& v ≠ 0 then clearWord v c else v) :: r.2)

/-- `has_new_bits_mul` (src lines 242-269): run the discover pass over every
virgin map, take `primary` from map 0 and `diversity` as the max over the
non-primary maps, and pack the tag byte `primary | (diversity << 2)`.
Returns the tag together with the updated virgin maps. -/
def has_new_bits_mul (modify : Bool) (trace : List Nat) (virgins : List (List Nat)) :
    Nat × List (List Nat) :=
  let results := virgins.map (discover_map modify trace)
  let new_bits := results.map (fun r => r.1)
  let primary := new_bits.headD 0
  let diversity := (new_bits.drop 1).foldl max 0
  (primary ||| (diversity <<< 2), results.map (fun r => r.2))

/-- Modelled from the spec (§4.C, `skim` in `coverage-64.h`, not under
`src/`): the read-only pre-filter over the raw (unclassified) trace.  Per the
source's own comment on `has_new_bits_unclassified` (src lines 271-279) it is
"a combination of classify_counts and has_new_bits" that performs a "one-pass
scan on trace bits without modifying anything": each raw trace word is
classified on the fly and tested for overlap against every virgin word, which
is what makes the stated invariant "if skim returns false, classification
would not have changed the decision" (§4.C) hold. -/
def skim (virgins : List (List Nat)) (current : List Nat) : Bool :=
  virgins.any (fun v => (current.zip v).any (fun p => classify_word p.1 &&& p.2 ≠ 0))

/-- `has_new_bits_unclassified` (src lines 281-304): returns 0 when the skim
pre-filter finds nothing, 1 otherwise (classification and the real multi-map
pass are deferred to the caller). -/
def has_new_bits_unclassified (virgins : List (List Nat)) (current : List Nat) : Nat :=
  if skim virgins current then 1 else 0

/-- Specification-side per-edge novelty level (§4.C), stated on single bytes:
2 for a new edge (non-zero hit on a pristine virgin byte), 1 for a new count
bucket (some class bit not yet cleared), 0 otherwise. -/
def edgeLevel (c v : Nat) : Nat :=
  if c ≠ 0 ∧ v = 255 then 2 else if c &&& v ≠ 0 then 1 else 0

/-- Specification-side novelty level of one word pair: max of `edgeLevel`
over its eight bytes. -/
def wordLevelSpec (c v : Nat) : Nat :=
  ((List.range 8).map (fun j => edgeLevel (byteAt j c) (byteAt j v))).foldr max 0

/-- Specification-side novelty level of a whole trace against one virgin map:
max of `wordLevelSpec` over all word positions. -/
def noveltyLevel (trace virgin : List Nat) : Nat :=
  ((trace.zip virgin).map (fun p => wordLevelSpec p.1 p.2)).foldr max 0

/-- Specification-side diversity level: max novelty level over a set of maps. -/
def diversityLevel (trace : List Nat) (maps : List (List Nat)) : Nat :=
  (maps.map (noveltyLevel trace)).foldr max 0

/-- Byte-wise classification of a trace viewed as its byte array: apply
`count_class_lookup8` to every byte.  Per §4.B this computes the same
per-byte output as the word/16-bit-lane formulations. -/
def classify_bytes (t : List Nat) : List Nat := t.map count_class_lookup8

/-- The parallel (SWAR) popcount of one 32-bit word, exactly as computed by
`count_bits`' slow path (src lines 80-82).  All intermediates stay below
`2 ^ 32` when `v < 2 ^ 32` except the final multiply, which the `u32`
arithmetic wraps; only it is reduced mod `2 ^ 32`. -/
def popcnt_swar (v : Nat) : Nat :=
  let v1 := v - ((v >>> 1) &&& 0x55555555)
  let v2 := (v1 &&& 0x33333333) + ((v1 >>> 2) &&& 0x33333333)
  (((v2 + (v2 >>> 4)) &&& 0xF0F0F0F) * 0x01010101 % 2 ^ 32) >>> 24

/-- `count_bits` (src lines 60-88) over the map viewed as its list of 32-bit
words (`(real_map_size + 3) >> 2` of them; the caller zero-pads the trailing
bytes up to the word boundary): words equal to `0xffffffff` take the fast path
and contribute 32, all others go through the SWAR popcount. -/
def count_bits (mem : List Nat) : Nat :=
  mem.foldl (fun ret v => if v = 0xffffffff then ret + 32 else ret + popcnt_swar v) 0

/-- Specification-side Hamming weight of the low `n` bits of `v`. -/
def bitWeight : Nat → Nat → Nat
  | 0, _ => 0
  | n + 1, v => bitWeight n v + (if v.testBit n then 1 else 0)

/-- Per-byte image of the first SWAR stage: `(b >> 1) & 0x55`. -/
def s1b (b : Nat) : Nat := (b >>> 1) &&& 0x55

/-- Per-byte image after the 2-bit-field stage: pair counts. -/
def f1b (b : Nat) : Nat := b - s1b b

/-- Per-byte image after the 4-bit-field stage: nibble counts. -/
def f2b (b : Nat) : Nat := (f1b b &&& 0x33) + ((f1b b >>> 2) &&& 0x33)

/-- Per-byte image after the byte stage: the byte's popcount. -/
def h8b (b : Nat) : Nat := (f2b b + (f2b b >>> 4)) &&& 0x0F

/-- `struct key_value_pair` (used by src lines 986-1099): a chain node holding
a `u32` key and an opaque pointer payload (`Option Nat`, with `Option.none`
standing for `NULL`). -/
structure key_value_pair where
  key : Nat
  value : Option Nat
deriving DecidableEq

/-- `struct hashmap`: open-chained table; each bucket is the chain hanging off
the table slot, head first. -/
structure hashmap where
  size : Nat
  table_size : Nat
  table : List (List key_value_pair)
deriving DecidableEq

/-- `hashmap_create` (src 987-1004). -/
def hashmap_create (table_size : Nat) : hashmap :=
  ⟨0, table_size, List.replicate table_size []⟩

/-- `hashmap_fit` (src 1006-1008). -/
def hashmap_fit (key table_size : Nat) : Nat := key % table_size

/-- The chain hanging off slot `i`. -/
def bucket_at (t : List (List key_value_pair)) (i : Nat) : List key_value_pair :=
  t.getD i []

/-- One old chain walked head-first by `hashmap_resize`'s inner loop
(src 1019-1026): each pair is prepended into its new slot. -/
def scatter (n2 : Nat) (t : List (List key_value_pair)) (ps : List key_value_pair) :
    List (List key_value_pair) :=
  ps.foldl (fun acc p =>
    acc.set (hashmap_fit p.key n2) (p :: bucket_at acc (hashmap_fit p.key n2))) t

/-- `hashmap_resize` (src 1010-1032): double the table and walk every old
bucket in order, re-prepending each pair into the new table (which reverses
the relative order of pairs sharing a new bucket). -/
def hashmap_resize (m : hashmap) : hashmap :=
  ⟨m.size, m.table_size * 2,
    m.table.foldl (scatter (m.table_size * 2)) (List.replicate (m.table_size * 2) [])⟩

/-- `hashmap_insert` (src 1039-1054): unconditionally prepend a new pair to
its bucket (duplicate keys included), bump `size`, and resize when
`size > table_size / 2`. -/
def hashmap_insert (m : hashmap) (key : Nat) (value : Option Nat) : hashmap :=
  let i := hashmap_fit key m.table_size
  let m1 : hashmap := ⟨m.size + 1, m.table_size,
    m.table.set i (⟨key, value⟩ :: bucket_at m.table i)⟩
  if m1.size > m1.table_size / 2 then hashmap_resize m1 else m1

/-- The chain walk of `hashmap_remove` (src 1056-1074): drop the first pair
carrying the key, reporting whether one was found. -/
def chain_remove (key : Nat) : List key_value_pair → List key_value_pair × Bool
  | [] => ([], false)
  | p :: ps =>
    if p.key = key then (ps, true)
    else
      let r := chain_remove key ps
      (p :: r.1, r.2)

/-- `hashmap_remove` (src 1056-1074): unlink (only) the first matching pair of
the key's bucket; `size` is decremented exactly when a pair was found. -/
def hashmap_remove (m : hashmap) (key : Nat) : hashmap :=
  let i := hashmap_fit key m.table_size
  let r := chain_remove key (bucket_at m.table i)
  ⟨if r.2 then m.size - 1 else m.size, m.table_size, m.table.set i r.1⟩

/-- The chain walk of `hashmap_get` (src 1076-1086). -/
def chain_get (key : Nat) : List key_value_pair → Option key_value_pair
  | [] => Option.none
  | p :: ps => if p.key = key then some p else chain_get key ps

/-- `hashmap_get` (src 1076-1086): the first pair carrying the key in its
bucket's chain, or null. -/
def hashmap_get (m : hashmap) (key : Nat) : Option key_value_pair :=
  chain_get key (bucket_at m.table (hashmap_fit key m.table_size))

/-- `hashmap_size` (src 1034-1036). -/
def hashmap_size (m : hashmap) : Nat := m.size

/-- Structural well-formedness: the table really has `table_size` buckets and
the table is non-empty, as produced by `hashmap_create` with a positive size
and preserved by every operation. -/
@[reducible] def hashmap.WF (m : hashmap) : Prop :=
  m.table.length = m.table_size ∧ 0 < m.table_size

/-- A key is present: some pair in its bucket carries it. -/
@[reducible] def hashmap.hasKey (m : hashmap) (key : Nat) : Prop :=
  ∃ p ∈ bucket_at m.table (hashmap_fit key m.table_size), p.key = key

/-- Outcomes of `run_valuation_binary` (the `FAULT_*` codes it can return). -/
inductive Fault
  | ok
  | tmout
  | crash
  | error
deriving DecidableEq

/-- The environment-dependent inputs of one valuation run, abstracting the
filesystem and the child process of `run_valuation` (src 1289-1345): whether
both `PACFIX_VAL_EXE` and `PACFIX_COV_DIR` are set, the outcome of
`run_valuation_binary`, whether the side-file exists after the run
(`access(tmpfile, F_OK) == 0`), and the 32-bit `hash_file` value of the
side-file. -/
structure ValCtx where
  env_ok : Bool
  fault : Fault
  file_ok : Bool
  hash : Nat
deriving DecidableEq

/-- Result of `run_valuation`: the returned flag, the updated
`afl->value_map`, whether the valuation binary was forked, and whether the
duplicate branch removed the side-file. -/
structure ValResult where
  success : Bool
  value_map : hashmap
  forked : Bool
  file_removed : Bool
deriving DecidableEq

/-- `run_valuation` (src 1289-1345): bail out when the environment is not
configured; fork the valuation binary; drop on timeout or missing side-file;
hash the side-file; if the hash is already in the valuation hashmap, delete
the side-file and drop with the map unchanged; otherwise insert the hash with
a `NULL` payload and accept. -/
def run_valuation (c : ValCtx) (m : hashmap) : ValResult :=
  if c.env_ok = false then ⟨false, m, false, false⟩
  else if c.fault = Fault.tmout ∨ c.file_ok = false then ⟨false, m, true, false⟩
  else if (hashmap_get m c.hash).isSome then ⟨false, m, true, true⟩
  else ⟨true, hashmap_insert m c.hash Option.none, true, false⟩

/-- The valuation bookkeeping fields of `afl_state_t`. -/
structure ValState where
  value_map : hashmap
  total_saved_crashes : Nat
  total_saved_positives : Nat
  renamed_files : Nat
deriving DecidableEq

/-- `save_valuation` (src 1348-1362): bump the appropriate counter and rename
the side-file into `memory/<neg|pos>/id:<seq>`. -/
def save_valuation (crashed : Bool) (s : ValState) : ValState :=
  { s with
    total_saved_crashes := s.total_saved_crashes + (if crashed then 1 else 0),
    total_saved_positives := s.total_saved_positives + (if crashed then 0 else 1),
    renamed_files := s.renamed_files + 1 }

/-- `get_valuation` (src 1275-1287): attempt the valuation run only when the
execution hit at least one target or the main run crashed; on success also
`save_valuation`.  Returns `(is_unique, new valuation state, forked)`. -/
def get_valuation (num_targets : Nat) (crashed : Bool) (c : ValCtx) (s : ValState) :
    Bool × ValState × Bool :=
  if 0 < num_targets ∨ crashed = true then
    let r := run_valuation c s.value_map
    if r.success then
      (true, save_valuation crashed { s with value_map := r.value_map }, r.forked)
    else
      (false, { s with value_map := r.value_map }, r.forked)
  else
    (false, s, false)

/-- How many runs of a sequence are accepted with side-file hash `h`,
threading the valuation hashmap through the runs. -/
def val_accept_count (m : hashmap) (h : Nat) : List ValCtx → Nat
  | [] => 0
  | c :: cs =>
    let r := run_valuation c m
    (if r.success && c.hash == h then 1 else 0) + val_accept_count r.value_map h cs

/-- `STAGE_VAL_*` selectors for `stage_val_type`. -/
inductive StageValType
  | noneV
  | leV
  | beV
deriving DecidableEq

/-- Zero-padded `%06u` rendering. -/
def pad6 (n : Nat) : String :=
  let s := toString n
  String.mk (List.replicate (6 - s.length) '0') ++ s

/-- `%+d` rendering (sign always printed). -/
def fmtSigned (i : Int) : String :=
  (if 0 ≤ i then "+" else "-") ++ toString i.natAbs

/-- The `afl_state_t` fields `describe_op` (src 328-440) reads, with the
custom-mutator `describe` hook abstracted as the string it would return
(`Option.none`: no custom mutator with a describe hook is active;
`some ""`: the hook failed, triggering the `op:` fallback). -/
structure DescCtx where
  syncing_party : Option String
  syncing_case : Nat
  current_entry : Nat
  splicing_with : Int
  elapsed_ms : Nat
  total_execs : Nat
  custom_describe : Option String
  stage_short : String
  stage_cur_byte : Int
  stage_val_type : StageValType
  stage_cur_val : Int
deriving DecidableEq

/-- `describe_op` (src 328-440) up to (but not including) the final length
guard: split the tag into `is_timeout`/`primary`/`diversity` (the `u8`
subtraction `new_bits -= 0x80` wraps mod 256), build the source/time/op part
(`sync:...` when syncing, else `src:...` with optional splice, `time`,
`execs`, then either the truncated custom description — fatal when the
remaining budget `size_left` is not positive — or the `op:`/`pos:`/`val:`/
`rep:` fields), and append the `,+tout`/`,+cov[2]`/`,+div[2]`/`,+path`
markers.  `Option.none` models the `FATAL` abort.  ASCII strings only, so
`String.length` agrees with `strlen`. -/
def describe_op_raw (ctx : DescCtx) (new_bits0 : Nat) (new_paths : Bool)
    (max_description_len : Nat) : Option String :=
  let is_timeout : Bool := new_bits0 &&& 0xf0 != 0
  let nb1 := if is_timeout then (new_bits0 + 256 - 0x80) % 256 else new_bits0
  let new_div := nb1 >>> 2
  let new_bits := nb1 &&& 3
  let real_max_len := min max_description_len 256
  let base? : Option String :=
    match ctx.syncing_party with
    | some party => some ("sync:" ++ party ++ ",src:" ++ pad6 ctx.syncing_case)
    | Option.none =>
      let s0 := "src:" ++ pad6 ctx.current_entry
      let s1 :=
        if 0 ≤ ctx.splicing_with then s0 ++ "+" ++ pad6 ctx.splicing_with.toNat else s0
      let s2 := s1 ++ ",time:" ++ toString ctx.elapsed_ms
        ++ ",execs:" ++ toString ctx.total_execs
      match ctx.custom_describe with
      | some custom =>
        let len_current := s2.length + 1
        let size_left : Int := (real_max_len : Int) - len_current - 6 - 6 - 6 - 2
          - (if is_timeout then 6 else 0)
        if size_left ≤ 0 then Option.none
        else if custom = "" then some (s2 ++ "," ++ "op:" ++ ctx.stage_short)
        else some (s2 ++ "," ++ custom.take size_left.toNat)
      | Option.none =>
        let s3 := s2 ++ ",op:" ++ ctx.stage_short
        some (if 0 ≤ ctx.stage_cur_byte then
            (s3 ++ ",pos:" ++ toString ctx.stage_cur_byte.toNat)
            ++ (if ctx.stage_val_type ≠ StageValType.noneV then
                ",val:" ++ (if ctx.stage_val_type = StageValType.beV then "be:" else "")
                  ++ fmtSigned ctx.stage_cur_val
              else "")
          else s3 ++ ",rep:" ++ toString ctx.stage_cur_val)
  match base? with
  | Option.none => Option.none
  | some s =>
    let sa := if is_timeout then s ++ ",+tout" else s
    let sb := if new_bits ≠ 0 then sa ++ ",+cov" ++ (if new_bits = 2 then "2" else "")
      else sa
    let sc := if new_div ≠ 0 then sb ++ ",+div" ++ (if new_div = 2 then "2" else "")
      else sb
    some (if new_paths then sc ++ ",+path" else sc)

/-- The final guard of `describe_op` (src 435-437): fatal when the descriptor
length reaches `max_description_len`. -/
def describe_op_check (max_description_len : Nat) : Option String → Option String
  | Option.none => Option.none
  | some s => if max_description_len ≤ s.length then Option.none else some s

/-- `describe_op` (src 328-440): the descriptor, or `Option.none` for the two
`FATAL` aborts (custom budget exhausted, final length guard). -/
def describe_op (ctx : DescCtx) (new_bits0 : Nat) (new_paths : Bool)
    (max_description_len : Nat) : Option String :=
  describe_op_check max_description_len
    (describe_op_raw ctx new_bits0 new_paths max_description_len)

/-- A sample `describe_op` context used by the C8 witness. -/
def descSampleCtx : DescCtx :=
  ⟨Option.none, 0, 3, (-1 : Int), 1234, 999, Option.none, "havoc", (-1 : Int),
    StageValType.noneV, 5⟩

/-- The slice of `afl_state_t` that the save pipeline reads and writes.
Traces and virgin maps are word lists; artifact files are counted rather than
named; wall-clock fields (`last_crash_time`, `last_hang_time`,
`last_crash_execs`), introspection output and the `n_fuzz` frequency counters
of the FAST..RARE schedules are outside the model (the latter are touched
only after the `len == 0` early return and only under those schedules). -/
structure AflState where
  trace_bits : List Nat
  virgin_bits : List Nat
  virgin_tmout : List Nat
  virgin_crash : List Nat
  written_bits : List Nat
  bitmap_changed : Bool
  vals : ValState
  num_targets : Nat
  crash_mode : Bool
  non_instrumented_mode : Bool
  keep_timeouts : Bool
  no_crash_readme : Bool
  readme_written : Bool
  exec_tmout : Nat
  hang_tmout : Nat
  keep_unique_hang : Nat
  keep_unique_crash : Nat
  total_crashes : Nat
  total_tmouts : Nat
  saved_crashes : Nat
  saved_hangs : Nat
  saved_tmouts : Nat
  queued_items : Nat
  queued_with_cov : Nat
  queued_extra : Nat
  recover_virgin_calls : Nat
  files_written : Nat
deriving DecidableEq

/-- Which virgin map a `has_new_bits` call receives; the source recognises
the primary map by pointer comparison with `afl->virgin_bits` (src 235). -/
inductive VirginSel
  | primary
  | tmout
  | crash
deriving DecidableEq

def virgin_of (σ : AflState) : VirginSel → List Nat
  | VirginSel.primary => σ.virgin_bits
  | VirginSel.tmout => σ.virgin_tmout
  | VirginSel.crash => σ.virgin_crash

/-- `has_new_bits` (src 207-240) as a state transformer: discover pass of
`trace_bits` against the selected virgin map (mutating it), and
`bitmap_changed` set exactly when something was found on the primary map. -/
def has_new_bits_st (σ : AflState) (sel : VirginSel) : Nat × AflState :=
  let r := discover_map true σ.trace_bits (virgin_of σ sel)
  let σ1 :=
    match sel with
    | VirginSel.primary => { σ with virgin_bits := r.2 }
    | VirginSel.tmout => { σ with virgin_tmout := r.2 }
    | VirginSel.crash => { σ with virgin_crash := r.2 }
  (r.1, if r.1 ≠ 0 ∧ sel = VirginSel.primary then { σ1 with bitmap_changed := true } else σ1)

/-- `has_new_bits_mul` (src 242-269) as a state transformer over the primary
map plus the scheduler-owned extra maps (`afl->virgins[0] = afl->virgin_bits`,
src 564/608): when `modify` is set the updated primary map is written back.
The updated extra maps belong to the scheduler and are not part of
`AflState`.  Note this path never touches `bitmap_changed`. -/
def has_new_bits_mul_st (σ : AflState) (extra : List (List Nat)) (modify : Bool) :
    Nat × AflState :=
  let r := has_new_bits_mul modify σ.trace_bits (σ.virgin_bits :: extra)
  (r.1, if modify then { σ with virgin_bits := r.2.headD [] } else σ)

/-- `write_bitmap` (src 38-55): persist `virgin_bits` only when
`bitmap_changed` is set, clearing the flag. -/
def write_bitmap (σ : AflState) : AflState :=
  if σ.bitmap_changed then
    { σ with
      bitmap_changed := false,
      written_bits := σ.virgin_bits,
      files_written := σ.files_written + 1 }
  else σ

/-- The scheduler/forkserver answers one `save_if_interesting` call consumes,
as oracle data: the extra virgin maps of `aflrun_get_virgins` and
`aflrun_get_seed_virgins`, the `aflrun_has_new_path` verdict, the
`calibrate_case` outcome, and the hang-confirmation re-run's fault and raw
trace (`fuzz_run_target` with `hang_tmout`, src 799). -/
structure SchedOracle where
  extra_virgins : List (List Nat)
  seed_virgins : List (List Nat)
  has_new_path : Bool
  calibrate_ok : Bool
  rerun_fault : Fault
  rerun_trace : List Nat
  stop_soon : Bool
deriving DecidableEq

/-- The queue-save block at label `save_to_queue` (src 620-716): write the
queue file, enqueue, mark `aflrun_extra` when only diversity or path novelty
is present, mark `has_new_cov` when the primary level is 2, and calibrate
inline (`FSRV_RUN_ERROR` from calibration is fatal, modelled as
`Option.none`). -/
def save_to_queue (σ : AflState) (or : SchedOracle) (new_bits : Nat)
    (new_paths : Bool) : Option AflState :=
  let σ1 := { σ with
    files_written := σ.files_written + 1,
    queued_items := σ.queued_items + 1 }
  let σ2 := if new_bits &&& 3 = 0 ∧ (new_bits >>> 2 ≠ 0 ∨ new_paths = true) then
      { σ1 with queued_extra := σ1.queued_extra + 1 }
    else σ1
  let σ3 := if new_bits &&& 3 = 2 then
      { σ2 with queued_with_cov := σ2.queued_with_cov + 1 }
    else σ2
  if or.calibrate_ok then some σ3 else Option.none

/-- The tail of the `FSRV_RUN_CRASH` switch case after its early returns
(src 877-943): write the crash README on the very first saved crash (unless
suppressed), bump `saved_crashes`; the crash artifact itself is written after
the switch, signalled by the final `true`. -/
def crash_save (σ : AflState) (keeping : Nat) : Nat × AflState × Bool :=
  let σ1 := if σ.saved_crashes = 0 ∧ σ.no_crash_readme = false then
      { σ with
        readme_written := true,
        files_written := σ.files_written + 1 }
    else σ
  (keeping, { σ1 with saved_crashes := σ1.saved_crashes + 1 }, true)

/-- The `case FSRV_RUN_CRASH` branch (src 855-943): count the crash, stop at
`KEEP_UNIQUE_CRASH`, and (in instrumented mode) classify if needed, simplify
the trace and check `virgin_crash` for new bits before saving. -/
def crash_branch (σ : AflState) (keeping : Nat) (classified : Bool) :
    Nat × AflState × Bool :=
  let σ1 := { σ with total_crashes := σ.total_crashes + 1 }
  if σ1.saved_crashes ≥ σ1.keep_unique_crash then (keeping, σ1, false)
  else if σ1.non_instrumented_mode then crash_save σ1 keeping
  else
    let t1 := if classified then σ1.trace_bits else classify_counts σ1.trace_bits
    let σ2 := { σ1 with trace_bits := simplify_trace t1 }
    let r := has_new_bits_st σ2 VirginSel.crash
    if r.1 = 0 then (keeping, r.2, false)
    else crash_save r.2 keeping

/-- The `switch (fault)` tail of `save_if_interesting` (src 722-951), as
`(keeping, state, write_artifact_file)` or `Option.none` for the fatal
paths.  The timeout branch's `goto save_to_queue` (src 824) re-enters this
switch with `fault` still `FSRV_RUN_TMOUT` once the queue block falls out of
the `if` (src 717 → 722); in the C code that loop terminates because each
re-entry requires `has_new_bits` to clear at least one further
`virgin_tmout` bit, and the model makes this termination measure explicit as
a `fuel` argument that callers initialise above the total bit weight of
`virgin_tmout` (the `fuel = 0` branch is unreachable for such callers). -/
def switch_fault (or : SchedOracle) : Nat → AflState → Fault → Nat → Bool →
    Option (Nat × AflState × Bool)
  | 0, σ, _, keeping, _ => some (keeping, σ, false)
  | fuel + 1, σ, fault, keeping, classified =>
    match fault with
    | Fault.tmout =>
      let σ1 := { σ with total_tmouts := σ.total_tmouts + 1 }
      if σ1.saved_hangs ≥ σ1.keep_unique_hang then some (keeping, σ1, false)
      else
        let chk : AflState × Bool × Bool :=
          if σ1.non_instrumented_mode then (σ1, classified, true)
          else
            let t1 := if classified then σ1.trace_bits else classify_counts σ1.trace_bits
            let σ2 := { σ1 with trace_bits := simplify_trace t1 }
            let r := has_new_bits_st σ2 VirginSel.tmout
            (r.2, true, r.1 != 0)
        let σ2 := chk.1
        let classified2 := chk.2.1
        if chk.2.2 = false then some (keeping, σ2, false)
        else if σ2.exec_tmout < σ2.hang_tmout then
          let σ3 := { σ2 with trace_bits := classify_counts or.rerun_trace }
          if or.stop_soon = false ∧ or.rerun_fault = Fault.crash then
            some (crash_branch σ3 keeping classified2)
          else if or.stop_soon = true ∨ or.rerun_fault ≠ Fault.tmout then
            if σ3.keep_timeouts then
              let σ4 := { σ3 with saved_tmouts := σ3.saved_tmouts + 1 }
              match save_to_queue σ4 or 0 false with
              | Option.none => Option.none
              | some σ5 => switch_fault or fuel σ5 Fault.tmout 1 classified2
            else some (keeping, σ3, false)
          else some (keeping, { σ3 with saved_hangs := σ3.saved_hangs + 1 }, true)
        else some (keeping, { σ2 with saved_hangs := σ2.saved_hangs + 1 }, true)
    | Fault.crash => some (crash_branch σ keeping classified)
    | Fault.error => Option.none
    | Fault.ok => some (keeping, σ, false)

/-- Total bit weight of a virgin map (64-bit words), used to initialise the
fuel of `switch_fault`. -/
def virgin_weight (m : List Nat) : Nat := (m.map (bitWeight 64)).sum

/-- `save_if_interesting` (src 503-984).  `len == 0` notifies the scheduler
(`aflrun_recover_virgin`) and drops.  Otherwise: the valuation side-channel
runs for OK/CRASH faults and, when it admits a unique valuation, a copy of
the input is written under `memory/input/`; the OK/CRASH novelty protocol
runs skim, classifies lazily, asks the scheduler about new paths, re-queries
the virgin maps and commits with the multi-map pass before saving to the
queue; other faults notify `aflrun_recover_virgin`; finally the fault switch
runs and, unless the valuation already saved this input (`is_unique`), the
crash/hang artifact is written.  `Option.none` models `FATAL`. -/
def save_if_interesting (σ0 : AflState) (or : SchedOracle) (vc : ValCtx)
    (len : Nat) (fault : Fault) : Option (Nat × AflState) :=
  if len = 0 then
    some (0, { σ0 with recover_virgin_calls := σ0.recover_virgin_calls + 1 })
  else
    let val :=
      if fault = Fault.crash ∨ fault = Fault.ok then
        get_valuation σ0.num_targets (fault = Fault.crash) vc σ0.vals
      else (false, σ0.vals, false)
    let is_unique := val.1
    let σ1 :=
      let σ1a := { σ0 with vals := val.2.1 }
      if is_unique then { σ1a with files_written := σ1a.files_written + 1 } else σ1a
    if fault = Fault.crash ∨ fault = Fault.ok then
      let nb0 := has_new_bits_unclassified (σ1.virgin_bits :: or.extra_virgins) σ1.trace_bits
      let σ2 := if nb0 ≠ 0 then { σ1 with trace_bits := classify_counts σ1.trace_bits }
        else σ1
      let new_paths := or.has_new_path
      if nb0 = 0 ∧ new_paths = false then
        some (0, if σ2.crash_mode then { σ2 with total_crashes := σ2.total_crashes + 1 }
          else σ2)
      else
        let σ3 := if nb0 ≠ 0 then σ2
          else { σ2 with trace_bits := classify_counts σ2.trace_bits }
        let r := has_new_bits_mul_st σ3 or.seed_virgins true
        match save_to_queue r.2 or r.1 new_paths with
        | Option.none => Option.none
        | some σ4 =>
          match switch_fault or (virgin_weight σ4.virgin_tmout + 1) σ4 fault 1 true with
          | Option.none => Option.none
          | some (keeping, σ5, wr) =>
            if is_unique then some (keeping, σ5)
            else if wr then some (keeping, { σ5 with files_written := σ5.files_written + 1 })
            else some (keeping, σ5)
    else
      let σ2 := { σ1 with recover_virgin_calls := σ1.recover_virgin_calls + 1 }
      match switch_fault or (virgin_weight σ2.virgin_tmout + 1) σ2 fault 0 false with
      | Option.none => Option.none
      | some (keeping, σ3, wr) =>
        if is_unique then some (keeping, σ3)
        else if wr then some (keeping, { σ3 with files_written := σ3.files_written + 1 })
        else some (keeping, σ3)

/-- Valuation state for the C2 counterexample. -/
def cexVals : ValState := ⟨hashmap_create 2, 0, 0, 0⟩

/-- Initial state for the C2 counterexample: one-word maps, all virgin bits
set, the on-disk snapshot in sync with `virgin_bits`, `bitmap_changed`
clear. -/
def cexState : AflState :=
  ⟨[1], [255], [255], [255], [255], false, cexVals, 0, false, false, false, true,
    false, 1000, 2000, 500, 1000, 0, 0, 0, 0, 0, 0, 0, 0, 0, 0⟩

/-- Oracle for the C2 counterexample: no extra maps, no new path, calibration
succeeds. -/
def cexOracle : SchedOracle := ⟨[], [], false, true, Fault.ok, [], false⟩

/-- Valuation inputs for the C2 counterexample: environment not configured. -/
def cexValCtx : ValCtx := ⟨false, Fault.ok, false, 0⟩

/-- The C2 counterexample run: a non-crashing execution with a genuinely new
edge (trace word 1 against all-virgin maps). -/
def cexRun : Option (Nat × AflState) :=
  save_if_interesting cexState cexOracle cexValCtx 1 Fault.ok

/-- Final state of the C2 counterexample run. -/
def cexFinal : AflState := (cexRun.getD (0, cexState)).2

theorem byteAt_lt (j w : Nat) : byteAt j w < 256 :=
  Nat.lt_succ_of_le (Nat.and_le_right)

theorem byteAt_zero (j : Nat) : byteAt j 0 = 0 := by
  rw [byteAt, Nat.zero_shiftRight, Nat.zero_and]

theorem testBit_255 (i : Nat) : (255 : Nat).testBit i = decide (i < 8) := by
  have h : (255 : Nat) = 2 ^ 8 - 1 := by norm_num
  rw [h, Nat.testBit_two_pow_sub_one]

theorem testBit_byteAt (j w i : Nat) :
    (byteAt j w).testBit i = (w.testBit (8 * j + i) && decide (i < 8)) := by
  simp only [byteAt, Nat.testBit_and, Nat.testBit_shiftRight, testBit_255]

theorem byteAt_land (j c v : Nat) :
    byteAt j (c &&& v) = byteAt j c &&& byteAt j v := by
  apply Nat.eq_of_testBit_eq
  intro i
  simp only [testBit_byteAt, Nat.testBit_and]
  cases h : decide (i < 8) <;> cases c.testBit (8 * j + i) <;>
    cases v.testBit (8 * j + i) <;> simp

theorem byteAt_eq_div_mod (j w : Nat) : byteAt j w = w / 2 ^ (8 * j) % 256 := by
  have h255 : (255 : Nat) = 2 ^ 8 - 1 := by norm_num
  rw [byteAt, Nat.shiftRight_eq_div_pow, h255, Nat.and_pow_two_sub_one_eq_mod]

theorem eq_zero_of_bytes_zero (w : Nat) (hw : w < 2 ^ 64)
    (h : ∀ j < 8, byteAt j w = 0) : w = 0 := by
  have h0 := h 0 (by norm_num)
  have h1 := h 1 (by norm_num)
  have h2 := h 2 (by norm_num)
  have h3 := h 3 (by norm_num)
  have h4 := h 4 (by norm_num)
  have h5 := h 5 (by norm_num)
  have h6 := h 6 (by norm_num)
  have h7 := h 7 (by norm_num)
  rw [byteAt_eq_div_mod] at h0 h1 h2 h3 h4 h5 h6 h7
  norm_num at h0 h1 h2 h3 h4 h5 h6 h7 hw
  omega

theorem exists_byte_ne_zero (w : Nat) (hw : w < 2 ^ 64) (h : w ≠ 0) :
    ∃ j < 8, byteAt j w ≠ 0 := by
  by_contra hc
  push_neg at hc
  exact h (eq_zero_of_bytes_zero w hw hc)

theorem foldr_max_le {l : List Nat} {b : Nat} (h : ∀ x ∈ l, x ≤ b) :
    l.foldr max 0 ≤ b := by
  induction l with
  | nil => exact Nat.zero_le b
  | cons x xs ih =>
    simp only [List.foldr_cons]
    exact max_le (h x (List.mem_cons_self x xs)) (ih fun y hy => h y (List.mem_cons_of_mem x hy))

theorem le_foldr_max {l : List Nat} {x : Nat} (hx : x ∈ l) :
    x ≤ l.foldr max 0 := by
  induction l with
  | nil => cases hx
  | cons y ys ih =>
    simp only [List.foldr_cons]
    rcases List.mem_cons.mp hx with h | h
    · exact h ▸ le_max_left _ _
    · exact le_trans (ih h) (le_max_right _ _)

theorem foldl_max_eq_foldr (a : Nat) (l : List Nat) :
    l.foldl max a = max a (l.foldr max 0) := by
  induction l generalizing a with
  | nil => simp
  | cons x xs ih =>
    simp only [List.foldl_cons, List.foldr_cons, ih (max a x)]
    rw [max_assoc]

theorem edgeLevel_le_two (c v : Nat) : edgeLevel c v ≤ 2 := by
  unfold edgeLevel
  split
  · exact le_refl 2
  · split
    · omega
    · omega

theorem wordLevelSpec_le_two (c v : Nat) : wordLevelSpec c v ≤ 2 := by
  apply foldr_max_le
  intro x hx
  rcases List.mem_map.mp hx with ⟨j, _, rfl⟩
  exact edgeLevel_le_two _ _

theorem noveltyLevel_le_two (t v : List Nat) : noveltyLevel t v ≤ 2 := by
  apply foldr_max_le
  intro x hx
  rcases List.mem_map.mp hx with ⟨p, _, rfl⟩
  exact wordLevelSpec_le_two _ _

theorem diversityLevel_le_two (t : List Nat) (ms : List (List Nat)) :
    diversityLevel t ms ≤ 2 := by
  apply foldr_max_le
  intro x hx
  rcases List.mem_map.mp hx with ⟨m, _, rfl⟩
  exact noveltyLevel_le_two _ _

theorem land_byte_self (c : Nat) (hc : c < 256) : c &&& 255 = c := by
  have h : (255 : Nat) = 2 ^ 8 - 1 := by norm_num
  rw [h, Nat.and_pow_two_sub_one_eq_mod, Nat.mod_eq_of_lt (by norm_num at hc ⊢; omega)]

theorem wordLevel_eq_spec (c v : Nat) (hc : c < 2 ^ 64) (hv : v < 2 ^ 64) :
    wordLevel c v = wordLevelSpec c v := by
  by_cases h0 : c &&& v = 0
  · rw [wordLevel, if_pos h0]
    symm
    rw [wordLevelSpec]
    apply Nat.le_antisymm _ (Nat.zero_le _)
    apply foldr_max_le
    intro x hx
    rcases List.mem_map.mp hx with ⟨j, _, rfl⟩
    have hbz : byteAt j c &&& byteAt j v = 0 := by
      rw [← byteAt_land, h0, byteAt_zero]
    rw [edgeLevel]
    split
    · rename_i hedge
      exfalso
      rcases hedge with ⟨hcne, hv255⟩
      rw [hv255, land_byte_self _ (byteAt_lt j c)] at hbz
      exact hcne hbz
    · rw [if_neg (by simp [hbz])]
  · by_cases hedge : (List.range 8).any (fun j => newEdgeByte (byteAt j c) (byteAt j v)) = true
    · rw [wordLevel, if_neg h0, if_pos hedge]
      rcases List.any_eq_true.mp hedge with ⟨j, hj, hne⟩
      have hmem : edgeLevel (byteAt j c) (byteAt j v)
          ∈ (List.range 8).map (fun j => edgeLevel (byteAt j c) (byteAt j v)) :=
        List.mem_map_of_mem _ hj
      have he2 : edgeLevel (byteAt j c) (byteAt j v) = 2 := by
        rw [newEdgeByte] at hne
        simp only [Bool.and_eq_true, bne_iff_ne, beq_iff_eq] at hne
        rw [edgeLevel, if_pos hne]
      have h2le : (2 : Nat) ≤ wordLevelSpec c v := by
        rw [wordLevelSpec, ← he2]
        exact le_foldr_max hmem
      exact Nat.le_antisymm h2le (wordLevelSpec_le_two c v)
    · rw [wordLevel, if_neg h0, if_neg hedge]
      have hno2 : ∀ j ∈ List.range 8, edgeLevel (byteAt j c) (byteAt j v) ≤ 1 := by
        intro j hj
        have hni : ¬(byteAt j c ≠ 0 ∧ byteAt j v = 255) := by
          intro hcontra
          apply hedge
          refine List.any_eq_true.mpr ⟨j, hj, ?_⟩
          rw [newEdgeByte]
          simp [hcontra.1, hcontra.2]
        rw [edgeLevel, if_neg hni]
        split <;> omega
      rcases exists_byte_ne_zero (c &&& v) (lt_of_le_of_lt Nat.and_le_left hc) h0
        with ⟨j, hj8, hjne⟩
      rw [byteAt_land] at hjne
      have hge1 : 1 ≤ edgeLevel (byteAt j c) (byteAt j v) := by
        rw [edgeLevel]
        split
        · omega
        · simp [hjne]
      have hge1w : 1 ≤ wordLevelSpec c v := by
        rw [wordLevelSpec]
        exact le_trans hge1
          (le_foldr_max (List.mem_map_of_mem _ (List.mem_range.mpr hj8)))
      have hle1w : wordLevelSpec c v ≤ 1 := by
        rw [wordLevelSpec]
        apply foldr_max_le
        intro x hx
        rcases List.mem_map.mp hx with ⟨i, hi, rfl⟩
        exact hno2 i hi
      exact Nat.le_antisymm hge1w hle1w

theorem discover_map_fst (modify : Bool) (cs vs : List Nat)
    (hc : ∀ w ∈ cs, w < 2 ^ 64) (hv : ∀ w ∈ vs, w < 2 ^ 64) :
    (discover_map modify cs vs).1 = noveltyLevel cs vs := by
  induction cs generalizing vs with
  | nil => simp [discover_map, noveltyLevel]
  | cons c cs ih =>
    cases vs with
    | nil => simp [discover_map, noveltyLevel]
    | cons v vs =>
      simp only [discover_map, noveltyLevel, List.zip_cons_cons, List.map_cons,
        List.foldr_cons]
      rw [ih vs (fun w hw => hc w (List.mem_cons_of_mem _ hw))
            (fun w hw => hv w (List.mem_cons_of_mem _ hw)),
          wordLevel_eq_spec c v (hc c (List.mem_cons_self _ _))
            (hv v (List.mem_cons_self _ _))]
      rfl

theorem foldl_max_map_zero {α : Type} (l : List α) :
    (l.map (fun _ => (0 : Nat))).foldl max 0 = 0 := by
  induction l with
  | nil => rfl
  | cons x xs ih => simpa using ih

theorem discover_map_no_overlap (cs vs : List Nat)
    (h : ∀ p ∈ cs.zip vs, p.1 &&& p.2 = 0) :
    discover_map true cs vs = (0, vs) := by
  induction cs generalizing vs with
  | nil => rfl
  | cons c cs ih =>
    cases vs with
    | nil => rfl
    | cons v vs =>
      have hcv : c &&& v = 0 := h (c, v) (by simp)
      have hrest : ∀ p ∈ cs.zip vs, p.1 &&& p.2 = 0 := by
        intro p hp
        exact h p (by simp [hp])
      simp only [discover_map, ih vs hrest]
      rw [wordLevel, if_pos hcv, if_neg (by simp [hcv])]
      simp

theorem has_new_bits_mul_all_zero (modify : Bool) (t : List Nat)
    (virgins : List (List Nat))
    (h : ∀ v ∈ virgins, discover_map modify t v = (0, v)) :
    has_new_bits_mul modify t virgins = (0, virgins) := by
  have hmap : virgins.map (discover_map modify t)
      = virgins.map (fun v => ((0 : Nat), v)) := List.map_congr_left h
  simp only [has_new_bits_mul, hmap, List.map_map]
  have h1 : ((fun r : Nat × List Nat => r.1) ∘ fun v => ((0 : Nat), v))
      = fun _ : List Nat => (0 : Nat) := rfl
  have h2 : ((fun r : Nat × List Nat => r.2) ∘ fun v => ((0 : Nat), v))
      = (id : List Nat → List Nat) := rfl
  rw [h1, h2, List.map_id]
  have hhead : (virgins.map (fun _ => (0 : Nat))).headD 0 = 0 := by
    cases virgins <;> rfl
  have hdrop : ((virgins.map (fun _ => (0 : Nat))).drop 1).foldl max 0 = 0 := by
    cases virgins with
    | nil => rfl
    | cons v vs => simpa using foldl_max_map_zero vs
  rw [hhead, hdrop]
  rfl

/-- C1 (skim soundness): if the read-only skim pre-filter over the raw,
unclassified trace reports nothing (`has_new_bits_unclassified` returns 0, so
the pipeline drops the run), then classifying the trace and running the
multi-map discover pass with `modify = true` would have left every virgin map
unchanged and produced tag 0: the early drop never loses a novel execution. -/
theorem skim_false_sound (trace : List Nat) (virgins : List (List Nat))
    (h : has_new_bits_unclassified virgins trace = 0) :
    has_new_bits_mul true (classify_counts trace) virgins = (0, virgins) := by
  have hskim : skim virgins trace = false := by
    by_contra hcon
    rw [Bool.not_eq_false] at hcon
    rw [has_new_bits_unclassified, if_pos hcon] at h
    exact one_ne_zero h
  rw [skim] at hskim
  have hall : ∀ v ∈ virgins, ∀ p ∈ trace.zip v, classify_word p.1 &&& p.2 = 0 := by
    intro v hvmem p hp
    have h1 := List.any_eq_false.mp hskim v hvmem
    have h1f := Bool.eq_false_iff.mpr h1
    have h2 := List.any_eq_false.mp h1f p hp
    simpa using h2
  apply has_new_bits_mul_all_zero
  intro v hvmem
  apply discover_map_no_overlap
  intro p hp
  rw [classify_counts, List.zip_map_left] at hp
  rcases List.mem_map.mp hp with ⟨q, hq, rfl⟩
  obtain ⟨a, b⟩ := q
  exact hall v hvmem (a, b) hq

/-- C1 witness. -/
theorem skim_false_sound_witness :
    has_new_bits_unclassified [[255]] [0] = 0
    ∧ has_new_bits_mul true (classify_counts [0]) [[255]] = (0, [[255]]) :=
  ⟨by decide, skim_false_sound [0] [[255]] (by decide)⟩

/-- C3: for every trace and non-empty list of virgin maps whose index-0 entry
is the primary map, `has_new_bits_mul` returns the byte
`primary ||| (diversity <<< 2)`, where `primary ∈ {0,1,2}` is the novelty
level of the trace against the index-0 map and `diversity ∈ {0,1,2}` is the
maximum novelty level over all non-primary maps (per-edge levels as specified
in §4.C). -/
theorem has_new_bits_mul_tag_layout (modify : Bool) (trace : List Nat)
    (virgins : List (List Nat)) (h0 : virgins ≠ [])
    (ht : ∀ w ∈ trace, w < 2 ^ 64) (hv : ∀ m ∈ virgins, ∀ w ∈ m, w < 2 ^ 64) :
    (has_new_bits_mul modify trace virgins).1
      = noveltyLevel trace (virgins.headD [])
        ||| (diversityLevel trace (virgins.drop 1) <<< 2)
    ∧ noveltyLevel trace (virgins.headD []) ≤ 2
    ∧ diversityLevel trace (virgins.drop 1) ≤ 2 := by
  refine ⟨?_, noveltyLevel_le_two _ _, diversityLevel_le_two _ _⟩
  cases virgins with
  | nil => exact absurd rfl h0
  | cons v rest =>
    have hfst : ∀ m ∈ v :: rest, (discover_map modify trace m).1 = noveltyLevel trace m := by
      intro m hm
      exact discover_map_fst modify trace m ht (hv m hm)
    rw [has_new_bits_mul]
    simp only [List.map_cons, List.map_map, List.headD_cons, List.drop_succ_cons,
      List.drop_zero]
    rw [hfst v (List.mem_cons_self _ _)]
    have hrest : rest.map ((fun r => r.1) ∘ discover_map modify trace)
        = rest.map (noveltyLevel trace) := by
      apply List.map_congr_left
      intro m hm
      exact hfst m (List.mem_cons_of_mem _ hm)
    rw [hrest, foldl_max_eq_foldr]
    rw [Nat.zero_max]
    rfl

/-- C3 witness. -/
theorem has_new_bits_mul_tag_layout_witness :
    ([[255], [15]] : List (List Nat)) ≠ []
    ∧ (has_new_bits_mul true [2] [[255], [15]]).1
        = noveltyLevel [2] ([[255], [15]].headD [])
          ||| (diversityLevel [2] ([[255], [15]].drop 1) <<< 2) :=
  ⟨by decide,
    (has_new_bits_mul_tag_layout true [2] [[255], [15]] (by decide)
      (by decide) (by decide)).1⟩

theorem count_class_lookup8_idem_of (b : Nat) (h : b ≤ 2 ∨ 32 ≤ b) :
    count_class_lookup8 (count_class_lookup8 b) = count_class_lookup8 b := by
  rcases h with h | h
  · interval_cases b <;> decide
  · have hb : count_class_lookup8 b = 64 ∨ count_class_lookup8 b = 128 := by
      rw [count_class_lookup8]
      rw [if_neg (by omega), if_neg (by omega), if_neg (by omega), if_neg (by omega),
        if_neg (by omega), if_neg (by omega), if_neg (by omega)]
      split
      · exact Or.inl rfl
      · exact Or.inr rfl
    rcases hb with hb | hb <;> rw [hb] <;> decide

/-- C6 counterexample: classification is not idempotent as claimed; a raw hit
count of 3 classifies to bucket 4, and classifying again moves it to bucket 8
(`count_class_lookup8 4 = 8`), so `classify (classify [3]) ≠ classify [3]`. -/
theorem classify_not_idempotent_cex :
    classify_bytes (classify_bytes [3]) ≠ classify_bytes [3] := by
  decide

/-- C6 amended: the count-class bucketing (via `count_class_lookup8`,
equivalently the 16-bit table built as `(lookup8 b1 <<< 8) ||| lookup8 b2` in
`count_class_lookup16`) applied twice agrees with applying it once exactly on
traces whose bytes already lie in `{0, 1, 2} ∪ [32, 255]`; in general a second
application moves buckets (4→8, 8→16, 16→32, 32→64), which is why the pipeline
classifies each trace at most once (the `classified` flag). -/
theorem classify_idempotent_restricted (t : List Nat)
    (h : ∀ b ∈ t, b ≤ 2 ∨ 32 ≤ b) :
    classify_bytes (classify_bytes t) = classify_bytes t := by
  rw [classify_bytes, classify_bytes, List.map_map]
  apply List.map_congr_left
  intro b hb
  exact count_class_lookup8_idem_of b (h b hb)

/-- C6 amended witness. -/
theorem classify_idempotent_restricted_witness :
    ((1 : Nat) ≤ 2 ∨ 32 ≤ 1) ∧ ((40 : Nat) ≤ 2 ∨ 32 ≤ 40)
    ∧ classify_bytes (classify_bytes [1, 40, 200]) = classify_bytes [1, 40, 200] :=
  ⟨by decide, by decide,
    classify_idempotent_restricted [1, 40, 200] (by decide)⟩

set_option maxRecDepth 2000

theorem land_split (a b m k : Nat) (ha : a < 2 ^ k) :
    (a + 2 ^ k * b) &&& m = (a &&& m % 2 ^ k) + 2 ^ k * (b &&& (m >>> k)) := by
  have hpos : 0 < 2 ^ k := Nat.pos_pow_of_pos _ (by norm_num)
  have hleft : a &&& m % 2 ^ k < 2 ^ k :=
    lt_of_le_of_lt Nat.and_le_right (Nat.mod_lt _ hpos)
  apply Nat.eq_of_testBit_eq
  intro i
  rw [Nat.testBit_and, Nat.add_comm a, Nat.testBit_mul_pow_two_add _ ha,
    Nat.add_comm (a &&& m % 2 ^ k), Nat.testBit_mul_pow_two_add _ hleft]
  by_cases h : i < k
  · rw [if_pos h, if_pos h, Nat.testBit_and, Nat.testBit_mod_two_pow]
    cases a.testBit i <;> cases m.testBit i <;> simp [h]
  · rw [if_neg h, if_neg h, Nat.testBit_and, Nat.testBit_shiftRight]
    have hik : k + (i - k) = i := by omega
    rw [hik]

theorem land_split8 (a b m M : Nat) (ha : a < 256) (hm : m < 256) :
    (a + 256 * b) &&& (m + 256 * M) = (a &&& m) + 256 * (b &&& M) := by
  have h28 : (2 : Nat) ^ 8 = 256 := by norm_num
  have h := land_split a b (m + 256 * M) 8 (by rw [h28]; exact ha)
  rw [h28] at h
  have hmod : (m + 256 * M) % 256 = m := by omega
  have hshift : (m + 256 * M) >>> 8 = M := by
    rw [Nat.shiftRight_eq_div_pow, h28]
    omega
  rw [hmod, hshift] at h
  exact h

theorem land_mask4 (m u0 u1 u2 u3 : Nat) (h0 : u0 < 256) (h1 : u1 < 256)
    (h2 : u2 < 256) (hm : m < 256) :
    (u0 + 256 * u1 + 65536 * u2 + 16777216 * u3)
        &&& (m + 256 * m + 65536 * m + 16777216 * m)
      = (u0 &&& m) + 256 * (u1 &&& m) + 65536 * (u2 &&& m) + 16777216 * (u3 &&& m) := by
  have e1 : u0 + 256 * u1 + 65536 * u2 + 16777216 * u3
      = u0 + 256 * (u1 + 256 * (u2 + 256 * u3)) := by ring
  have e2 : m + 256 * m + 65536 * m + 16777216 * m
      = m + 256 * (m + 256 * (m + 256 * m)) := by ring
  rw [e1, e2, land_split8 _ _ _ _ h0 hm, land_split8 _ _ _ _ h1 hm,
    land_split8 _ _ _ _ h2 hm]
  ring

theorem bitWeight_congr (n x y : Nat) (h : ∀ i < n, x.testBit i = y.testBit i) :
    bitWeight n x = bitWeight n y := by
  induction n with
  | zero => rfl
  | succ n ih =>
    rw [bitWeight, bitWeight, ih (fun i hi => h i (by omega)), h n (by omega)]

theorem bitWeight_shift (m n x : Nat) :
    bitWeight (n + m) x = bitWeight n x + bitWeight m (x >>> n) := by
  induction m with
  | zero => rfl
  | succ m ih =>
    rw [← Nat.add_assoc, bitWeight, ih, bitWeight, Nat.testBit_shiftRight]
    omega

theorem bitWeight_mod256 (x : Nat) : bitWeight 8 (x % 256) = bitWeight 8 x := by
  apply bitWeight_congr
  intro i hi
  have h : (256 : Nat) = 2 ^ 8 := by norm_num
  rw [h, Nat.testBit_mod_two_pow]
  simp [hi]

theorem bitWeight32_bytes (v : Nat) :
    bitWeight 32 v
      = bitWeight 8 (v % 256) + bitWeight 8 (v / 256 % 256)
        + bitWeight 8 (v / 65536 % 256) + bitWeight 8 (v / 16777216 % 256) := by
  have hs8 : ∀ y : Nat, y >>> 8 = y / 256 := by
    intro y
    rw [Nat.shiftRight_eq_div_pow]
  have h1 : bitWeight 32 v = bitWeight 8 v + bitWeight 24 (v / 256) := by
    have h := bitWeight_shift 24 8 v
    rwa [hs8] at h
  have h2 : bitWeight 24 (v / 256) = bitWeight 8 (v / 256) + bitWeight 16 (v / 65536) := by
    have h := bitWeight_shift 16 8 (v / 256)
    rw [hs8] at h
    rwa [show v / 256 / 256 = v / 65536 by omega] at h
  have h3 : bitWeight 16 (v / 65536)
      = bitWeight 8 (v / 65536) + bitWeight 8 (v / 16777216) := by
    have h := bitWeight_shift 8 8 (v / 65536)
    rw [hs8] at h
    rwa [show v / 65536 / 256 = v / 16777216 by omega] at h
  rw [h1, h2, h3]
  simp only [bitWeight_mod256]
  ring

theorem swar_byte_s1 : ∀ b, b < 256 → ∀ c, c < 2 →
    (b / 2 + 128 * c) &&& 0x55 = s1b b := by decide

theorem swar_byte_s1_le : ∀ b, b < 256 → s1b b ≤ b := by decide

theorem swar_byte_f1_lt : ∀ b, b < 256 → f1b b < 256 := by decide

theorem swar_byte_d3 : ∀ b, b < 256 → ∀ c, c < 4 →
    (b / 4 + 64 * c) &&& 0x33 = (b >>> 2) &&& 0x33 := by decide

theorem swar_byte_f2_bounds : ∀ b, b < 256 →
    f2b b ≤ 68 ∧ f2b b % 16 ≤ 4 ∧ f2b b / 16 ≤ 4 := by decide

theorem swar_byte_h8 : ∀ b, b < 256 → ∀ c, c < 5 →
    (f2b b + f2b b / 16 + 16 * c) &&& 0x0F = h8b b := by decide

theorem swar_byte_h8_val : ∀ b, b < 256 → h8b b = bitWeight 8 b ∧ h8b b ≤ 8 := by
  decide

theorem popcnt_swar_eq (v : Nat) (hv : v < 2 ^ 32) : popcnt_swar v = bitWeight 32 v := by
  have h232 : (2 : Nat) ^ 32 = 4294967296 := by norm_num
  rw [h232] at hv
  set b0 := v % 256 with hb0
  set b1 := v / 256 % 256 with hb1
  set b2 := v / 65536 % 256 with hb2
  set b3 := v / 16777216 with hb3
  have hB0 : b0 < 256 := by omega
  have hB1 : b1 < 256 := by omega
  have hB2 : b2 < 256 := by omega
  have hB3 : b3 < 256 := by omega
  have hB : v = b0 + 256 * b1 + 65536 * b2 + 16777216 * b3 := by omega
  have hF10 := swar_byte_f1_lt b0 hB0
  have hF11 := swar_byte_f1_lt b1 hB1
  have hF12 := swar_byte_f1_lt b2 hB2
  have hF13 := swar_byte_f1_lt b3 hB3
  have hf2b0 := swar_byte_f2_bounds b0 hB0
  have hf2b1 := swar_byte_f2_bounds b1 hB1
  have hf2b2 := swar_byte_f2_bounds b2 hB2
  have hf2b3 := swar_byte_f2_bounds b3 hB3
  have hh80 := swar_byte_h8_val b0 hB0
  have hh81 := swar_byte_h8_val b1 hB1
  have hh82 := swar_byte_h8_val b2 hB2
  have hh83 := swar_byte_h8_val b3 hB3
  have hsA : v >>> 1 = (b0 / 2 + 128 * (b1 % 2)) + 256 * (b1 / 2 + 128 * (b2 % 2))
      + 65536 * (b2 / 2 + 128 * (b3 % 2)) + 16777216 * (b3 / 2) := by
    rw [Nat.shiftRight_eq_div_pow, pow_one]
    omega
  have hm55 : (0x55555555 : Nat) = 0x55 + 256 * 0x55 + 65536 * 0x55 + 16777216 * 0x55 := by
    norm_num
  have hA : (v >>> 1) &&& 0x55555555
      = s1b b0 + 256 * s1b b1 + 65536 * s1b b2 + 16777216 * s1b b3 := by
    rw [hsA, hm55, land_mask4 _ _ _ _ _ (by omega) (by omega) (by omega) (by norm_num)]
    rw [swar_byte_s1 b0 hB0 (b1 % 2) (by omega),
      swar_byte_s1 b1 hB1 (b2 % 2) (by omega),
      swar_byte_s1 b2 hB2 (b3 % 2) (by omega)]
    have h3 : b3 / 2 &&& 0x55 = s1b b3 := by
      have h := swar_byte_s1 b3 hB3 0 (by omega)
      simpa using h
    rw [h3]
  have hf1 : v - ((v >>> 1) &&& 0x55555555)
      = f1b b0 + 256 * f1b b1 + 65536 * f1b b2 + 16777216 * f1b b3 := by
    rw [hA]
    have h0 := swar_byte_s1_le b0 hB0
    have h1 := swar_byte_s1_le b1 hB1
    have h2 := swar_byte_s1_le b2 hB2
    have h3 := swar_byte_s1_le b3 hB3
    simp only [f1b]
    omega
  have hm33 : (0x33333333 : Nat) = 0x33 + 256 * 0x33 + 65536 * 0x33 + 16777216 * 0x33 := by
    norm_num
  have hC : (f1b b0 + 256 * f1b b1 + 65536 * f1b b2 + 16777216 * f1b b3) &&& 0x33333333
      = (f1b b0 &&& 0x33) + 256 * (f1b b1 &&& 0x33) + 65536 * (f1b b2 &&& 0x33)
        + 16777216 * (f1b b3 &&& 0x33) := by
    rw [hm33]
    exact land_mask4 _ _ _ _ _ hF10 hF11 hF12 (by norm_num)
  have hsD : (f1b b0 + 256 * f1b b1 + 65536 * f1b b2 + 16777216 * f1b b3) >>> 2
      = (f1b b0 / 4 + 64 * (f1b b1 % 4)) + 256 * (f1b b1 / 4 + 64 * (f1b b2 % 4))
        + 65536 * (f1b b2 / 4 + 64 * (f1b b3 % 4)) + 16777216 * (f1b b3 / 4) := by
    rw [Nat.shiftRight_eq_div_pow]
    have h22 : (2 : Nat) ^ 2 = 4 := by norm_num
    rw [h22]
    omega
  have hD : ((f1b b0 + 256 * f1b b1 + 65536 * f1b b2 + 16777216 * f1b b3) >>> 2)
        &&& 0x33333333
      = ((f1b b0 >>> 2) &&& 0x33) + 256 * ((f1b b1 >>> 2) &&& 0x33)
        + 65536 * ((f1b b2 >>> 2) &&& 0x33) + 16777216 * ((f1b b3 >>> 2) &&& 0x33) := by
    rw [hsD, hm33, land_mask4 _ _ _ _ _ (by omega) (by omega) (by omega) (by norm_num)]
    rw [swar_byte_d3 (f1b b0) hF10 (f1b b1 % 4) (by omega),
      swar_byte_d3 (f1b b1) hF11 (f1b b2 % 4) (by omega),
      swar_byte_d3 (f1b b2) hF12 (f1b b3 % 4) (by omega)]
    have h3 : f1b b3 / 4 &&& 0x33 = (f1b b3 >>> 2) &&& 0x33 := by
      have h := swar_byte_d3 (f1b b3) hF13 0 (by omega)
      simpa using h
    rw [h3]
  have hE : ((f1b b0 &&& 0x33) + 256 * (f1b b1 &&& 0x33) + 65536 * (f1b b2 &&& 0x33)
        + 16777216 * (f1b b3 &&& 0x33))
      + (((f1b b0 >>> 2) &&& 0x33) + 256 * ((f1b b1 >>> 2) &&& 0x33)
        + 65536 * ((f1b b2 >>> 2) &&& 0x33) + 16777216 * ((f1b b3 >>> 2) &&& 0x33))
      = f2b b0 + 256 * f2b b1 + 65536 * f2b b2 + 16777216 * f2b b3 := by
    simp only [f2b]
    ring
  have hFsum : (f2b b0 + 256 * f2b b1 + 65536 * f2b b2 + 16777216 * f2b b3)
      + ((f2b b0 + 256 * f2b b1 + 65536 * f2b b2 + 16777216 * f2b b3) >>> 4)
      = (f2b b0 + f2b b0 / 16 + 16 * (f2b b1 % 16))
        + 256 * (f2b b1 + f2b b1 / 16 + 16 * (f2b b2 % 16))
        + 65536 * (f2b b2 + f2b b2 / 16 + 16 * (f2b b3 % 16))
        + 16777216 * (f2b b3 + f2b b3 / 16 + 16 * 0) := by
    rw [Nat.shiftRight_eq_div_pow]
    have h24 : (2 : Nat) ^ 4 = 16 := by norm_num
    rw [h24]
    omega
  have hm0F : (0xF0F0F0F : Nat) = 0x0F + 256 * 0x0F + 65536 * 0x0F + 16777216 * 0x0F := by
    norm_num
  have hH : ((f2b b0 + f2b b0 / 16 + 16 * (f2b b1 % 16))
        + 256 * (f2b b1 + f2b b1 / 16 + 16 * (f2b b2 % 16))
        + 65536 * (f2b b2 + f2b b2 / 16 + 16 * (f2b b3 % 16))
        + 16777216 * (f2b b3 + f2b b3 / 16 + 16 * 0)) &&& 0xF0F0F0F
      = h8b b0 + 256 * h8b b1 + 65536 * h8b b2 + 16777216 * h8b b3 := by
    rw [hm0F, land_mask4 _ _ _ _ _ (by omega) (by omega) (by omega) (by norm_num)]
    rw [swar_byte_h8 b0 hB0 (f2b b1 % 16) (by omega),
      swar_byte_h8 b1 hB1 (f2b b2 % 16) (by omega),
      swar_byte_h8 b2 hB2 (f2b b3 % 16) (by omega),
      swar_byte_h8 b3 hB3 0 (by omega)]
  have hG : ((h8b b0 + 256 * h8b b1 + 65536 * h8b b2 + 16777216 * h8b b3)
      * 0x01010101 % 2 ^ 32) >>> 24 = h8b b0 + h8b b1 + h8b b2 + h8b b3 := by
    rw [Nat.shiftRight_eq_div_pow]
    have h24 : (2 : Nat) ^ 24 = 16777216 := by norm_num
    rw [h24, h232]
    have hle0 := hh80.2
    have hle1 := hh81.2
    have hle2 := hh82.2
    have hle3 := hh83.2
    have hprod : (h8b b0 + 256 * h8b b1 + 65536 * h8b b2 + 16777216 * h8b b3) * 0x01010101
        = (h8b b0 + 256 * (h8b b0 + h8b b1) + 65536 * (h8b b0 + h8b b1 + h8b b2)
            + 16777216 * (h8b b0 + h8b b1 + h8b b2 + h8b b3))
          + 4294967296 * ((h8b b1 + h8b b2 + h8b b3) + 256 * (h8b b2 + h8b b3)
            + 65536 * h8b b3) := by
      ring
    rw [hprod, Nat.add_mul_mod_self_left]
    have hAbound : h8b b0 + 256 * (h8b b0 + h8b b1) + 65536 * (h8b b0 + h8b b1 + h8b b2)
        + 16777216 * (h8b b0 + h8b b1 + h8b b2 + h8b b3) < 4294967296 := by omega
    rw [Nat.mod_eq_of_lt hAbound]
    omega
  simp only [popcnt_swar]
  rw [hf1, hC, hD, hE, hFsum, hH, hG, bitWeight32_bytes v]
  rw [← hb0, ← hb1, ← hb2]
  rw [show v / 16777216 % 256 = b3 by omega]
  rw [hh80.1, hh81.1, hh82.1, hh83.1]

theorem count_bits_aux (mem : List Nat) (h : ∀ v ∈ mem, v < 2 ^ 32) : ∀ acc,
    mem.foldl (fun ret v => if v = 0xffffffff then ret + 32 else ret + popcnt_swar v) acc
      = acc + (mem.map (bitWeight 32)).sum := by
  induction mem with
  | nil =>
    intro acc
    simp
  | cons v vs ih =>
    intro acc
    simp only [List.foldl_cons, List.map_cons, List.sum_cons]
    have hv : v < 2 ^ 32 := h v (List.mem_cons_self _ _)
    rw [ih (fun w hw => h w (List.mem_cons_of_mem _ hw))]
    have hword : (if v = 0xffffffff then acc + 32 else acc + popcnt_swar v)
        = acc + bitWeight 32 v := by
      split
      · rename_i heq
        subst heq
        have h32 : bitWeight 32 0xffffffff = 32 := by decide
        rw [h32]
      · rw [popcnt_swar_eq v hv]
    rw [hword]
    omega

/-- C7: `count_bits` returns the Hamming weight of the map viewed as a
bitstring — the total number of set bits over its words (`real_map_size`
bytes rounded up to the 32-bit word, trailing padding bytes zero) — including
on the fast path where whole words equal to `0xffffffff` contribute exactly
32. -/
theorem count_bits_hamming (mem : List Nat) (h : ∀ v ∈ mem, v < 2 ^ 32) :
    count_bits mem = (mem.map (bitWeight 32)).sum := by
  rw [count_bits]
  simpa using count_bits_aux mem h 0

/-- C7 witness. -/
theorem count_bits_hamming_witness :
    (∀ v ∈ [0xffffffff, 0x12345678, 0, 7], v < 2 ^ 32)
    ∧ count_bits [0xffffffff, 0x12345678, 0, 7]
        = ([0xffffffff, 0x12345678, 0, 7].map (bitWeight 32)).sum :=
  ⟨by decide, count_bits_hamming _ (by decide)⟩

theorem bucket_at_set_self (t : List (List key_value_pair)) (i : Nat)
    (b : List key_value_pair) (h : i < t.length) :
    bucket_at (t.set i b) i = b := by
  rw [bucket_at, List.getD_eq_getElem?_getD, List.getElem?_set_self h]
  rfl

theorem bucket_at_set_ne (t : List (List key_value_pair)) (i j : Nat)
    (b : List key_value_pair) (h : i ≠ j) :
    bucket_at (t.set i b) j = bucket_at t j := by
  rw [bucket_at, bucket_at, List.getD_eq_getElem?_getD, List.getD_eq_getElem?_getD,
    List.getElem?_set_ne h]

theorem mem_bucket_at_set_prepend (t : List (List key_value_pair)) (i j : Nat)
    (a : key_value_pair) (p : key_value_pair)
    (hp : p ∈ bucket_at t j) :
    p ∈ bucket_at (t.set i (a :: bucket_at t i)) j := by
  by_cases hij : i = j
  · subst hij
    by_cases hlen : i < t.length
    · rw [bucket_at_set_self t i _ hlen]
      exact List.mem_cons_of_mem a hp
    · rw [List.set_eq_of_length_le (by omega)]
      exact hp
  · rwa [bucket_at_set_ne t i j _ hij]

theorem scatter_length (n2 : Nat) (ps : List key_value_pair) :
    ∀ t, (scatter n2 t ps).length = t.length := by
  induction ps with
  | nil => intro t; rfl
  | cons p ps ih =>
    intro t
    rw [scatter, List.foldl_cons]
    have h := ih (t.set (hashmap_fit p.key n2)
      (p :: bucket_at t (hashmap_fit p.key n2)))
    rw [scatter] at h
    rw [h, List.length_set]

theorem scatter_mono (n2 : Nat) (ps : List key_value_pair) :
    ∀ t j p, p ∈ bucket_at t j → p ∈ bucket_at (scatter n2 t ps) j := by
  induction ps with
  | nil => intro t j p hp; exact hp
  | cons q ps ih =>
    intro t j p hp
    rw [scatter, List.foldl_cons]
    have h1 : p ∈ bucket_at (t.set (hashmap_fit q.key n2)
        (q :: bucket_at t (hashmap_fit q.key n2))) j :=
      mem_bucket_at_set_prepend t _ j q p hp
    have h := ih (t.set (hashmap_fit q.key n2)
      (q :: bucket_at t (hashmap_fit q.key n2))) j p h1
    rwa [scatter] at h

theorem scatter_mem_new (n2 : Nat) (ps : List key_value_pair) :
    ∀ t p, p ∈ ps → hashmap_fit p.key n2 < t.length →
      p ∈ bucket_at (scatter n2 t ps) (hashmap_fit p.key n2) := by
  induction ps with
  | nil => intro t p hp; cases hp
  | cons q ps ih =>
    intro t p hp hlen
    rw [scatter, List.foldl_cons]
    rcases List.mem_cons.mp hp with rfl | hmem
    · have hhead : p ∈ bucket_at (t.set (hashmap_fit p.key n2)
          (p :: bucket_at t (hashmap_fit p.key n2))) (hashmap_fit p.key n2) := by
        rw [bucket_at_set_self t _ _ hlen]
        exact List.mem_cons_self _ _
      have h := scatter_mono n2 ps _ _ p hhead
      rwa [scatter] at h
    · have h := ih (t.set (hashmap_fit q.key n2)
        (q :: bucket_at t (hashmap_fit q.key n2))) p hmem (by rwa [List.length_set])
      rwa [scatter] at h

theorem fold_scatter_length (n2 : Nat) (bs : List (List key_value_pair)) :
    ∀ acc : List (List key_value_pair),
      (bs.foldl (scatter n2) acc).length = acc.length := by
  induction bs with
  | nil => intro acc; rfl
  | cons b bs ih =>
    intro acc
    rw [List.foldl_cons, ih, scatter_length]

theorem fold_scatter_mem (n2 : Nat) (bs : List (List key_value_pair)) :
    ∀ (acc : List (List key_value_pair)) (p : key_value_pair),
      hashmap_fit p.key n2 < acc.length →
      ((∃ b ∈ bs, p ∈ b) ∨ p ∈ bucket_at acc (hashmap_fit p.key n2)) →
      p ∈ bucket_at (bs.foldl (scatter n2) acc) (hashmap_fit p.key n2) := by
  induction bs with
  | nil =>
    intro acc p _ h
    rcases h with ⟨b, hb, _⟩ | h
    · cases hb
    · exact h
  | cons b bs ih =>
    intro acc p hlen h
    rw [List.foldl_cons]
    have hlen' : hashmap_fit p.key n2 < (scatter n2 acc b).length := by
      rwa [scatter_length]
    rcases h with ⟨b', hb', hpb'⟩ | h
    · rcases List.mem_cons.mp hb' with rfl | hmem
      · exact ih _ p hlen' (Or.inr (scatter_mem_new n2 b' acc p hpb' hlen))
      · exact ih _ p hlen' (Or.inl ⟨b', hmem, hpb'⟩)
    · exact ih _ p hlen' (Or.inr (scatter_mono n2 b acc _ p h))

theorem mem_bucket_exists (m : hashmap) (j : Nat) (p : key_value_pair)
    (hp : p ∈ bucket_at m.table j) : ∃ b ∈ m.table, p ∈ b := by
  rcases Nat.lt_or_ge j m.table.length with hlt | hge
  · refine ⟨m.table.getD j [], ?_, hp⟩
    rw [List.getD_eq_getElem?_getD, List.getElem?_eq_getElem hlt]
    exact List.getElem_mem _
  · rw [bucket_at, List.getD_eq_getElem?_getD, List.getElem?_eq_none hge] at hp
    cases hp

theorem resize_hasKey (m : hashmap) (k : Nat) (hwf : m.WF) (hk : m.hasKey k) :
    (hashmap_resize m).hasKey k := by
  rcases hk with ⟨p, hp, hpk⟩
  rcases hwf with ⟨hlen, hpos⟩
  refine ⟨p, ?_, hpk⟩
  rw [hashmap_resize]
  have hfit : hashmap_fit k (m.table_size * 2) = hashmap_fit p.key (m.table_size * 2) := by
    rw [hpk]
  rw [hfit]
  apply fold_scatter_mem
  · rw [List.length_replicate]
    exact Nat.mod_lt _ (by omega)
  · exact Or.inl (mem_bucket_exists m _ p hp)

theorem wf_resize (m : hashmap) (hwf : m.WF) : (hashmap_resize m).WF := by
  rcases hwf with ⟨hlen, hpos⟩
  refine ⟨?_, ?_⟩
  · show (m.table.foldl (scatter (m.table_size * 2))
      (List.replicate (m.table_size * 2) [])).length = m.table_size * 2
    rw [fold_scatter_length, List.length_replicate]
  · show 0 < m.table_size * 2
    omega

theorem wf_insert (m : hashmap) (k : Nat) (v : Option Nat) (hwf : m.WF) :
    (hashmap_insert m k v).WF := by
  rw [hashmap_insert]
  rcases hwf with ⟨hlen, hpos⟩
  split
  · exact wf_resize _ ⟨by simpa using hlen, hpos⟩
  · exact ⟨by simpa using hlen, hpos⟩

theorem insert_hasKey_self (m : hashmap) (k : Nat) (v : Option Nat) (hwf : m.WF) :
    (hashmap_insert m k v).hasKey k := by
  rcases hwf with ⟨hlen, hpos⟩
  have hfit : hashmap_fit k m.table_size < m.table.length := by
    rw [hlen]
    exact Nat.mod_lt _ hpos
  have hm1 : (⟨k, v⟩ : key_value_pair) ∈ bucket_at
      (m.table.set (hashmap_fit k m.table_size)
        (⟨k, v⟩ :: bucket_at m.table (hashmap_fit k m.table_size)))
      (hashmap_fit k m.table_size) := by
    rw [bucket_at_set_self _ _ _ hfit]
    exact List.mem_cons_self _ _
  rw [hashmap_insert]
  split
  · exact resize_hasKey _ k ⟨by simpa using hlen, hpos⟩ ⟨⟨k, v⟩, hm1, rfl⟩
  · exact ⟨⟨k, v⟩, hm1, rfl⟩

theorem insert_hasKey_mono (m : hashmap) (k k' : Nat) (v : Option Nat) (hwf : m.WF)
    (hk : m.hasKey k') : (hashmap_insert m k v).hasKey k' := by
  rcases hwf with ⟨hlen, hpos⟩
  rcases hk with ⟨p, hp, hpk⟩
  have hm1 : p ∈ bucket_at
      (m.table.set (hashmap_fit k m.table_size)
        (⟨k, v⟩ :: bucket_at m.table (hashmap_fit k m.table_size)))
      (hashmap_fit k' m.table_size) :=
    mem_bucket_at_set_prepend m.table _ _ _ p hp
  rw [hashmap_insert]
  split
  · exact resize_hasKey _ k' ⟨by simpa using hlen, hpos⟩ ⟨p, hm1, hpk⟩
  · exact ⟨p, hm1, hpk⟩

theorem chain_get_eq_none_iff (k : Nat) (l : List key_value_pair) :
    chain_get k l = Option.none ↔ ∀ p ∈ l, p.key ≠ k := by
  induction l with
  | nil => simp [chain_get]
  | cons p ps ih =>
    rw [chain_get]
    by_cases h : p.key = k
    · simp [h]
    · simp [h, ih]

theorem hasKey_iff_get (m : hashmap) (k : Nat) :
    m.hasKey k ↔ (hashmap_get m k).isSome := by
  rw [hashmap.hasKey, hashmap_get]
  constructor
  · intro ⟨p, hp, hpk⟩
    cases hget : chain_get k (bucket_at m.table (hashmap_fit k m.table_size)) with
    | none =>
      exact absurd hpk ((chain_get_eq_none_iff _ _).mp hget p hp)
    | some q => rfl
  · intro h
    cases hget : chain_get k (bucket_at m.table (hashmap_fit k m.table_size)) with
    | none => rw [hget] at h; cases h
    | some q =>
      by_contra hc
      push_neg at hc
      have : chain_get k (bucket_at m.table (hashmap_fit k m.table_size))
          = Option.none := (chain_get_eq_none_iff _ _).mpr hc
      rw [this] at hget
      cases hget

theorem run_valuation_wf (c : ValCtx) (m : hashmap) (hwf : m.WF) :
    (run_valuation c m).value_map.WF := by
  rw [run_valuation]
  split
  · exact hwf
  · split
    · exact hwf
    · split
      · exact hwf
      · exact wf_insert m c.hash Option.none hwf

theorem run_valuation_hasKey (c : ValCtx) (m : hashmap) (k : Nat) (hwf : m.WF)
    (hk : m.hasKey k) : (run_valuation c m).value_map.hasKey k := by
  rw [run_valuation]
  split
  · exact hk
  · split
    · exact hk
    · split
      · exact hk
      · exact insert_hasKey_mono m c.hash k Option.none hwf hk

theorem run_valuation_no_success_of_hasKey (c : ValCtx) (m : hashmap)
    (hwf : m.WF) (hk : m.hasKey c.hash) : (run_valuation c m).success = false := by
  rw [run_valuation]
  split
  · rfl
  · split
    · rfl
    · split
      · rfl
      · rename_i hnone
        exact absurd ((hasKey_iff_get m c.hash).mp hk) hnone

theorem val_accept_count_zero (cs : List ValCtx) : ∀ (m : hashmap) (h : Nat),
    m.WF → m.hasKey h → val_accept_count m h cs = 0 := by
  induction cs with
  | nil => intro m h _ _; rfl
  | cons c cs ih =>
    intro m h hwf hk
    rw [val_accept_count]
    have hrest := ih (run_valuation c m).value_map h (run_valuation_wf c m hwf)
      (run_valuation_hasKey c m h hwf hk)
    by_cases hch : c.hash = h
    · have hsucc : (run_valuation c m).success = false :=
        run_valuation_no_success_of_hasKey c m hwf (hch ▸ hk)
      rw [hsucc]
      simpa using hrest
    · have hne : (c.hash == h) = false := beq_false_of_ne hch
      rw [hne]
      simpa using hrest

theorem val_accept_count_le_one (cs : List ValCtx) : ∀ (m : hashmap) (h : Nat),
    m.WF → val_accept_count m h cs ≤ 1 := by
  induction cs with
  | nil => intro m h _; exact Nat.zero_le 1
  | cons c cs ih =>
    intro m h hwf
    rw [val_accept_count]
    by_cases hacc : ((run_valuation c m).success && c.hash == h) = true
    · rcases Bool.and_eq_true_iff.mp hacc with ⟨hsucc, hbeq⟩
      have hch : c.hash = h := beq_iff_eq.mp hbeq
      have hins : (run_valuation c m).value_map = hashmap_insert m c.hash Option.none := by
        rw [run_valuation] at hsucc ⊢
        split at hsucc
        · cases hsucc
        · split at hsucc
          · cases hsucc
          · split at hsucc
            · cases hsucc
            · rename_i h1 h2 h3
              rw [if_neg h1, if_neg h2, if_neg h3]
      have hzero : val_accept_count (run_valuation c m).value_map h cs = 0 := by
        apply val_accept_count_zero cs _ h (run_valuation_wf c m hwf)
        rw [hins, hch]
        exact insert_hasKey_self m h Option.none hwf
      rw [hacc, hzero]
      simp
    · rw [Bool.eq_false_iff.mpr hacc]
      have hrest := ih (run_valuation c m).value_map h (run_valuation_wf c m hwf)
      simpa using hrest

/-- C4: valuation deduplication.  A call to `run_valuation` accepts (returns
1) only when the side-file's 32-bit hash is absent from the valuation
hashmap, in which case the hash is inserted with a null payload; when the
hash is already present the call returns 0, leaves the map unchanged, and
(provided the run actually got as far as hashing: environment configured, no
timeout, side-file present) deletes the side-file.  Consequently, over any
sequence of runs each hash value is admitted at most once. -/
theorem run_valuation_dedup (m : hashmap) (hwf : m.WF) :
    (∀ c : ValCtx,
      ((run_valuation c m).success = true →
        hashmap_get m c.hash = Option.none
        ∧ (run_valuation c m).value_map = hashmap_insert m c.hash Option.none)
      ∧ ((hashmap_get m c.hash).isSome →
        (run_valuation c m).success = false
        ∧ (run_valuation c m).value_map = m
        ∧ (c.env_ok = true → c.fault ≠ Fault.tmout → c.file_ok = true →
            (run_valuation c m).file_removed = true)))
    ∧ ∀ (cs : List ValCtx) (h : Nat), val_accept_count m h cs ≤ 1 := by
  refine ⟨?_, fun cs h => val_accept_count_le_one cs m h hwf⟩
  intro c
  constructor
  · intro hsucc
    rw [run_valuation] at hsucc ⊢
    split at hsucc
    · cases hsucc
    · split at hsucc
      · cases hsucc
      · split at hsucc
        · cases hsucc
        · rename_i henv hflow hnone
          refine ⟨Option.not_isSome_iff_eq_none.mp hnone, ?_⟩
          rw [if_neg henv, if_neg hflow, if_neg hnone]
  · intro hsome
    by_cases h1 : c.env_ok = false
    · rw [run_valuation, if_pos h1]
      refine ⟨rfl, rfl, ?_⟩
      intro henv' _ _
      rw [henv'] at h1
      cases h1
    · by_cases h2 : c.fault = Fault.tmout ∨ c.file_ok = false
      · rw [run_valuation, if_neg h1, if_pos h2]
        refine ⟨rfl, rfl, ?_⟩
        intro _ hfault hfile
        rcases h2 with hf | hf
        · exact absurd hf hfault
        · rw [hfile] at hf
          cases hf
      · rw [run_valuation, if_neg h1, if_neg h2, if_pos hsome]
        exact ⟨rfl, rfl, fun _ _ _ => rfl⟩

/-- C4 witness. -/
theorem run_valuation_dedup_witness :
    (hashmap_create 4).WF
    ∧ val_accept_count (hashmap_create 4) 7
        [⟨true, Fault.ok, true, 7⟩, ⟨true, Fault.ok, true, 7⟩] ≤ 1 :=
  ⟨by decide, (run_valuation_dedup (hashmap_create 4) (by decide)).2 _ 7⟩

/-- C9: implicit precondition of the valuation side-channel — for a
non-crashing execution that reached no targets, `get_valuation` returns 0
without forking the valuation binary and without touching the valuation
hashmap or counters (the entire valuation state is returned unchanged). -/
theorem get_valuation_no_targets (c : ValCtx) (s : ValState) :
    get_valuation 0 false c s = (false, s, false) := by
  rw [get_valuation, if_neg]
  intro h
  rcases h with h | h
  · exact absurd h (by omega)
  · cases h

theorem chain_get_first (k : Nat) (l : List key_value_pair) (p : key_value_pair)
    (h : chain_get k l = some p) :
    ∃ pre suf, l = pre ++ p :: suf ∧ p.key = k ∧ ∀ q ∈ pre, q.key ≠ k := by
  induction l with
  | nil => cases h
  | cons q qs ih =>
    rw [chain_get] at h
    by_cases hq : q.key = k
    · rw [if_pos hq] at h
      injection h with h
      subst h
      exact ⟨[], qs, rfl, hq, by intro r hr; cases hr⟩
    · rw [if_neg hq] at h
      rcases ih h with ⟨pre, suf, heq, hpk, hpre⟩
      refine ⟨q :: pre, suf, by rw [heq]; rfl, hpk, ?_⟩
      intro r hr
      rcases List.mem_cons.mp hr with rfl | hr
      · exact hq
      · exact hpre r hr

theorem chain_remove_spec (k : Nat) (p : key_value_pair) (suf : List key_value_pair) :
    ∀ pre, (∀ q ∈ pre, q.key ≠ k) → p.key = k →
      chain_remove k (pre ++ p :: suf) = (pre ++ suf, true) := by
  intro pre
  induction pre with
  | nil =>
    intro _ hpk
    rw [List.nil_append, chain_remove, if_pos hpk, List.nil_append]
  | cons q qs ih =>
    intro hpre hpk
    rw [List.cons_append, chain_remove,
      if_neg (hpre q (List.mem_cons_self _ _)), List.cons_append]
    have h := ih (fun r hr => hpre r (List.mem_cons_of_mem q hr)) hpk
    rw [h]

/-- C10 counterexample: `hashmap_get` does not always return the most
recently inserted pair for a duplicated key.  Inserting key 0 twice into a
2-slot table triggers a resize on the second insert, and the resize walk
reverses the relative order of the equal-key pairs, so the lookup afterwards
returns the first-inserted pair `(0, some 5)` rather than the most recently
inserted `(0, some 7)`. -/
theorem hashmap_get_after_resize_cex :
    hashmap_get (hashmap_insert (hashmap_insert (hashmap_create 2) 0 (some 5)) 0 (some 7)) 0
      ≠ some ⟨0, some 7⟩
    ∧ hashmap_get (hashmap_insert (hashmap_insert (hashmap_create 2) 0 (some 5)) 0 (some 7)) 0
      = some ⟨0, some 5⟩ := by
  constructor
  · decide
  · decide

/-- C10 amended: `hashmap_insert` always prepends a new pair to its bucket
and increments `size`, even when the key is already present (duplicates
coexist and `size` counts them); `hashmap_get` returns the first pair for the
key in chain order, which is the most recently inserted one as long as no
resize has intervened (in particular when the insert itself does not trigger
a resize; each resize reverses the chain order of equal-key pairs);
`hashmap_remove` unlinks only the first matching pair of the chain and
decrements `size` by exactly one when the key is present. -/
theorem hashmap_ops_amended (m : hashmap) (k : Nat) (v : Option Nat) (hwf : m.WF) :
    ((hashmap_insert m k v).size = m.size + 1)
    ∧ (m.size + 1 ≤ m.table_size / 2 →
        bucket_at (hashmap_insert m k v).table (hashmap_fit k m.table_size)
          = ⟨k, v⟩ :: bucket_at m.table (hashmap_fit k m.table_size)
        ∧ hashmap_get (hashmap_insert m k v) k = some ⟨k, v⟩)
    ∧ (∀ p, hashmap_get m k = some p →
        ∃ pre suf, bucket_at m.table (hashmap_fit k m.table_size) = pre ++ p :: suf
          ∧ p.key = k ∧ ∀ q ∈ pre, q.key ≠ k)
    ∧ (∀ p pre suf,
        bucket_at m.table (hashmap_fit k m.table_size) = pre ++ p :: suf →
        p.key = k → (∀ q ∈ pre, q.key ≠ k) →
        bucket_at (hashmap_remove m k).table (hashmap_fit k m.table_size) = pre ++ suf
        ∧ (hashmap_remove m k).size = m.size - 1) := by
  rcases hwf with ⟨hlen, hpos⟩
  have hfit : hashmap_fit k m.table_size < m.table.length := by
    rw [hlen]
    exact Nat.mod_lt _ hpos
  refine ⟨?_, ?_, ?_, ?_⟩
  · rw [hashmap_insert]
    split
    · rfl
    · rfl
  · intro hsz
    have hno : ¬ m.size + 1 > m.table_size / 2 := by omega
    have hins : hashmap_insert m k v
        = ⟨m.size + 1, m.table_size,
            m.table.set (hashmap_fit k m.table_size)
              (⟨k, v⟩ :: bucket_at m.table (hashmap_fit k m.table_size))⟩ := by
      rw [hashmap_insert, if_neg hno]
    rw [hins]
    constructor
    · exact bucket_at_set_self _ _ _ hfit
    · rw [hashmap_get]
      show chain_get k (bucket_at (m.table.set _ _) (hashmap_fit k m.table_size)) = _
      rw [bucket_at_set_self _ _ _ hfit, chain_get, if_pos rfl]
  · intro p hget
    exact chain_get_first k _ p hget
  · intro p pre suf hbucket hpk hpre
    have hrem : chain_remove k (bucket_at m.table (hashmap_fit k m.table_size))
        = (pre ++ suf, true) := by
      rw [hbucket]
      exact chain_remove_spec k p suf pre hpre hpk
    rw [hashmap_remove]
    constructor
    · show bucket_at (m.table.set (hashmap_fit k m.table_size)
        (chain_remove k (bucket_at m.table (hashmap_fit k m.table_size))).1)
        (hashmap_fit k m.table_size) = pre ++ suf
      rw [hrem, bucket_at_set_self _ _ _ hfit]
    · show (if (chain_remove k (bucket_at m.table (hashmap_fit k m.table_size))).2
        then m.size - 1 else m.size) = m.size - 1
      rw [hrem]
      rfl

/-- C10 amended witness. -/
theorem hashmap_ops_amended_witness :
    (hashmap_create 4).WF
    ∧ (hashmap_insert (hashmap_create 4) 5 (some 9)).size = (hashmap_create 4).size + 1
    ∧ hashmap_get (hashmap_insert (hashmap_create 4) 5 (some 9)) 5 = some ⟨5, some 9⟩ :=
  ⟨by decide,
    (hashmap_ops_amended (hashmap_create 4) 5 (some 9) (by decide)).1,
    ((hashmap_ops_amended (hashmap_create 4) 5 (some 9) (by decide)).2.1 (by decide)).2⟩

/-- C8: whenever `describe_op` returns normally, the returned descriptor's
length is at most `max_description_len` (in fact strictly below it); a
descriptor that would exceed the limit aborts the process with a fatal error
instead, for every combination of tag bits, `new_paths` flag and mutation
context. -/
theorem describe_op_length_le (ctx : DescCtx) (new_bits0 : Nat) (new_paths : Bool)
    (max_description_len : Nat) (s : String)
    (h : describe_op ctx new_bits0 new_paths max_description_len = some s) :
    s.length ≤ max_description_len := by
  rw [describe_op] at h
  cases hraw : describe_op_raw ctx new_bits0 new_paths max_description_len with
  | none =>
    rw [hraw] at h
    cases h
  | some t =>
    rw [hraw, describe_op_check] at h
    by_cases hlen : max_description_len ≤ t.length
    · rw [if_pos hlen] at h
      cases h
    · rw [if_neg hlen] at h
      injection h with h
      subst h
      omega

/-- C8 witness. -/
theorem describe_op_length_le_witness :
    describe_op descSampleCtx 0x82 true 100
        = some ((describe_op descSampleCtx 0x82 true 100).getD "")
    ∧ ((describe_op descSampleCtx 0x82 true 100).getD "").length ≤ 100 :=
  ⟨by decide, describe_op_length_le descSampleCtx 0x82 true 100 _ (by decide)⟩

/-- C5: a `save_if_interesting` call with `len == 0` notifies the scheduler
to recover its virgin state (`aflrun_recover_virgin`) and returns 0 (not
kept), with no other effect on the state: no classification of the trace, no
virgin-map mutation, no file write, no queue entry, no counter update, and no
valuation activity — for every state, oracle, valuation input and fault. -/
theorem save_if_interesting_len_zero (σ : AflState) (or : SchedOracle)
    (vc : ValCtx) (fault : Fault) :
    save_if_interesting σ or vc 0 fault
      = some (0, { σ with recover_virgin_calls := σ.recover_virgin_calls + 1 }) := by
  rw [save_if_interesting, if_pos rfl]

/-- C2 counterexample: a save-pipeline call that records genuinely new
primary coverage through the multi-map pass (`has_new_bits_mul` with
`modify = 1`, src 617) clears a `virgin_bits` bit but leaves
`bitmap_changed` false, so afterwards `virgin_bits` differs from its state at
the most recent `write_bitmap` while `bitmap_changed` is still false —
refuting "bitmap_changed is true iff the primary virgin map differs from its
state at the last write_bitmap" and "any operation that clears a bit of
virgin_bits sets bitmap_changed". -/
theorem bitmap_changed_stale_cex :
    cexRun = some (1, cexFinal)
    ∧ cexFinal.virgin_bits ≠ cexFinal.written_bits
    ∧ cexFinal.bitmap_changed = false := by
  refine ⟨by decide, by decide, by decide⟩

theorem testBit_sub_and (i : Nat) : ∀ a b : Nat,
    (a - (a &&& b)).testBit i = (a.testBit i && !(b.testBit i)) := by
  induction i with
  | zero =>
    intro a b
    have hle : a &&& b ≤ a := Nat.and_le_left
    have hpar : (a &&& b) % 2 = 1 ↔ a % 2 = 1 ∧ b % 2 = 1 := Nat.and_mod_two_eq_one
    rcases Nat.mod_two_eq_zero_or_one a with ha | ha <;>
      rcases Nat.mod_two_eq_zero_or_one b with hb | hb <;>
      · have hs : (a &&& b) % 2 = 0 ∨ (a &&& b) % 2 = 1 := Nat.mod_two_eq_zero_or_one _
        simp only [Nat.testBit_zero]
        rcases hs with hs | hs
        · have h1 : (a - (a &&& b)) % 2 = (a % 2 + (a &&& b) % 2) % 2 := by omega
          rw [h1, hs, ha, hb]
          first
            | (exfalso; omega)
            | simp
            | (exfalso
               rcases hpar.mp hs with ⟨h2, h3⟩
               omega)
        · have h1 : (a - (a &&& b)) % 2 = (a % 2 + (a &&& b) % 2) % 2 := by omega
          rw [h1, hs, ha, hb]
          first
            | (exfalso; omega)
            | simp
            | (exfalso
               rcases hpar.mp hs with ⟨h2, h3⟩
               omega)
  | succ i ih =>
    intro a b
    have hle : a &&& b ≤ a := Nat.and_le_left
    have hmod : (a &&& b) % 2 ≤ a % 2 := by
      rcases Nat.mod_two_eq_zero_or_one (a &&& b) with hs | hs
      · omega
      · rcases Nat.and_mod_two_eq_one.mp hs with ⟨h1, _⟩
        omega
    have hdiv : (a - (a &&& b)) / 2 = a / 2 - (a / 2 &&& b / 2) := by
      rw [← Nat.and_div_two]
      omega
    rw [Nat.testBit_succ, hdiv, ih (a / 2) (b / 2), Nat.testBit_succ, Nat.testBit_succ]

theorem clearWord_eq_ldiff (v c : Nat) : clearWord v c = Nat.ldiff v c := by
  apply Nat.eq_of_testBit_eq
  intro i
  rw [clearWord, Nat.testBit_ldiff, testBit_sub_and]

/-- C2 amended: `bitmap_changed` is set by the single-map `has_new_bits`
exactly when it finds new bits and its argument is the primary map
(`virgin_map == afl->virgin_bits`, src 235), and it is reset by
`write_bitmap`, which snapshots `virgin_bits` only when the flag was set; the
multi-map pass `has_new_bits_mul` never touches the flag, so a save-pipeline
call that commits primary novelty through the multi-map path (the OK/CRASH
queue path, src 617) can leave `virgin_bits` differing from its state at the
last `write_bitmap` while `bitmap_changed` stays false. -/
theorem bitmap_changed_ops_amended (σ : AflState) (sel : VirginSel)
    (extra : List (List Nat)) (modify : Bool) :
    ((has_new_bits_st σ sel).2.bitmap_changed
      = (σ.bitmap_changed
        || ((has_new_bits_st σ sel).1 != 0 && sel == VirginSel.primary)))
    ∧ (has_new_bits_mul_st σ extra modify).2.bitmap_changed = σ.bitmap_changed
    ∧ (write_bitmap σ).bitmap_changed = false
    ∧ (write_bitmap σ).written_bits
      = (if σ.bitmap_changed then σ.virgin_bits else σ.written_bits) := by
  refine ⟨?_, ?_, ?_, ?_⟩
  · cases sel with
    | primary =>
      by_cases hr : (discover_map true σ.trace_bits σ.virgin_bits).1 = 0
      · simp [has_new_bits_st, virgin_of, hr]
      · simp [has_new_bits_st, virgin_of, hr]
    | tmout =>
      by_cases hr : (discover_map true σ.trace_bits σ.virgin_tmout).1 = 0
      · simp [has_new_bits_st, virgin_of, hr]
      · simp [has_new_bits_st, virgin_of, hr]
    | crash =>
      by_cases hr : (discover_map true σ.trace_bits σ.virgin_crash).1 = 0
      · simp [has_new_bits_st, virgin_of, hr]
      · simp [has_new_bits_st, virgin_of, hr]
  · rw [has_new_bits_mul_st]
    dsimp only
    split <;> rfl
  · rw [write_bitmap]
    split
    · rfl
    · rename_i h
      simp only [Bool.not_eq_true] at h
      exact h
  · rw [write_bitmap]
    split <;> rename_i h <;> simp [h]
